import Mathlib

/-!
Shallow embedding of the pointer-chain steganography engine of
`cs4379h-group4-securesteg` (files `src/steg/StegEncoder.ts`,
`StegDecoder.ts`, `StegHelpers.ts`, `StegImage.ts`, `StegPointer.ts`).

Modelling conventions:
* A pixel is four natural-number channels `(r, g, b, a)`, each a byte in the
  source (`Uint8ClampedArray` of length 4 in `StegPixel`).
* Cryptographic primitives are abstracted: HMAC-SHA256 appears as a function
  parameter `hmac : Nat → List Nat` from a pointer value to its 32-byte tag,
  and the ISAAC stream `Math.floor(isaac.random() * pixelCount)` appears as a
  stream parameter `stream : Nat → Nat`.  Encode and decode seed ISAAC with the
  same key string, so sharing one `stream` parameter models the common seed.
* JavaScript 32-bit words are modelled as `Nat` with explicit `% 2 ^ 32`-style
  bounds where that matters; `x >>> k` becomes `x / 2 ^ k` and `x & 0xffff`
  becomes `% 65536`.
* The source compares Euclidean distances `Math.sqrt (sum of squared channel
  differences)`.  The squared sums are integers below `4 * 255 ^ 2`, and
  correctly-rounded square roots of distinct integers in that range are
  distinct doubles, so comparing the doubles coincides with comparing the
  integer squared sums.  The model therefore works with the squared distance
  `similaritySq`, a `Nat`.
* The unbounded `while (uniqueIndices.size < targetCount)` loops are modelled
  with explicit fuel; a `none`/`fuelOut` result means the loop has not
  terminated within the given fuel (for any fuel, if so proved).
-/

/-- A pixel: four byte channels, as in `StegPixel.bytes = [r, g, b, a]`. -/
structure Pix where
  r : Nat
  g : Nat
  b : Nat
  a : Nat
  deriving Repr, DecidableEq

instance : Inhabited Pix := ⟨⟨0, 0, 0, 0⟩⟩

/-- Squared form of `StegPixel.similarity`: the sum of squared channel differences.
The source returns `Math.sqrt` of this sum and only ever compares two such
values; square root is strictly monotone, so `<`-comparisons agree. -/
def similaritySq (x y : Pix) : Nat :=
  Nat.dist x.r y.r ^ 2 + Nat.dist x.g y.g ^ 2 +
    Nat.dist x.b y.b ^ 2 + Nat.dist x.a y.a ^ 2

/-- The 16-bit pointer stored in a pixel: high byte in G, low byte in B
(`StegPointer` built from a pixel takes channels 1 and 2). -/
def ptrVal (x : Pix) : Nat := x.g * 256 + x.b

/-- The `modifiedPixel` of the encoder inner loop: set RED to the target byte
(`setChannel`) and the G, B channels to the two bytes of pointer `p`
(`setPointer` with `StegPointer` bytes `[(p >> 8) & 0xff, p & 0xff]`).
For `p < 65536` these bytes are `p / 256` and `p % 256`. -/
def modifyPix (x : Pix) (byte p : Nat) : Pix :=
  { r := byte, g := p / 256, b := p % 256, a := x.a }

/-- The encoder's perfect-match test: RED already equals the byte and the
stored pointer bytes equal the candidate pointer's bytes
(`original.bytes[RED] === byte && originalPtr.equals(possiblePtr)`). -/
def perfectMatch (x : Pix) (byte p : Nat) : Prop :=
  x.r = byte ∧ x.g = p / 256 ∧ x.b = p % 256

instance (x : Pix) (byte p : Nat) : Decidable (perfectMatch x byte p) := by
  unfold perfectMatch; infer_instance

theorem modifyPix_eq_self_iff (x : Pix) (byte p : Nat) :
    modifyPix x byte p = x ↔ perfectMatch x byte p := by
  unfold modifyPix perfectMatch
  constructor
  · intro h
    obtain ⟨hr, hg, hb, ha⟩ := Pix.mk.injEq .. ▸ congrArg id h
    exact ⟨hr.symm, hg.symm, hb.symm⟩
  · rintro ⟨hr, hg, hb⟩
    cases x
    simp_all

theorem similaritySq_eq_zero_iff (x y : Pix) :
    similaritySq x y = 0 ↔ x = y := by
  unfold similaritySq
  cases x; cases y
  simp [Nat.dist, Pix.mk.injEq, pow_eq_zero_iff]
  omega

/-! ### Hex strings: `packageKey` / `unpackageKey` (`StegHelpers.ts`) -/

/-- One hex digit, lowercase, as produced by `Number.prototype.toString(16)`. -/
def toHexDigit (n : Nat) : Char :=
  if n < 10 then Char.ofNat (48 + n) else Char.ofNat (87 + n)

/-- Structural worker for the hex digits of `n` (the fuel argument makes the
recursion structural, hence kernel-computable; `n` itself is always enough
fuel since `n / 16 < n`). -/
def hexDigitsGo : Nat → Nat → List Char → List Char
  | _, 0, acc => acc
  | 0, _ + 1, acc => acc
  | fuel + 1, n + 1, acc =>
    hexDigitsGo fuel ((n + 1) / 16) (toHexDigit ((n + 1) % 16) :: acc)

/-- Hex digits of `n` (most significant first) prepended to `acc`. -/
def hexDigitsAux (n : Nat) (acc : List Char) : List Char :=
  hexDigitsGo n n acc

theorem hexDigitsGo_fuel :
    ∀ fuel1 fuel2 n acc, n ≤ fuel1 → n ≤ fuel2 →
      hexDigitsGo fuel1 n acc = hexDigitsGo fuel2 n acc := by
  intro fuel1
  induction fuel1 with
  | zero =>
    intro fuel2 n acc h1 _
    obtain rfl : n = 0 := by omega
    match fuel2 with
    | 0 => rfl
    | _ + 1 => rfl
  | succ f ih =>
    intro fuel2 n acc h1 h2
    match n with
    | 0 =>
      match fuel2 with
      | 0 => rfl
      | _ + 1 => rfl
    | m + 1 =>
      match fuel2 with
      | f2 + 1 =>
        show hexDigitsGo f ((m + 1) / 16) _ = hexDigitsGo f2 ((m + 1) / 16) _
        have hq : (m + 1) / 16 < m + 1 := Nat.div_lt_self (Nat.succ_pos m)
          (by omega)
        exact ih f2 _ _ (by omega) (by omega)

theorem hexDigitsAux_zero (acc : List Char) : hexDigitsAux 0 acc = acc := rfl

theorem hexDigitsAux_succ (n : Nat) (acc : List Char) :
    hexDigitsAux (n + 1) acc =
      hexDigitsAux ((n + 1) / 16) (toHexDigit ((n + 1) % 16) :: acc) := by
  show hexDigitsGo (n + 1) (n + 1) acc = _
  have h1 : hexDigitsGo (n + 1) (n + 1) acc =
      hexDigitsGo n ((n + 1) / 16) (toHexDigit ((n + 1) % 16) :: acc) := rfl
  rw [h1]
  exact hexDigitsGo_fuel n ((n + 1) / 16) ((n + 1) / 16) _
    (by
      have := Nat.div_lt_self (Nat.succ_pos n) (show 1 < 16 by omega)
      omega)
    (Nat.le_refl _)

/-- Model of `n.toString(16)`: lowercase hex, no leading zeros, `"0"` for zero. -/
def toHexString (n : Nat) : String :=
  if n = 0 then "0" else String.mk (hexDigitsAux n [])

/-- Model of `String.prototype.padStart(4, "0")`. -/
def padStart4 (s : String) : String :=
  if 4 ≤ s.length then s
  else String.mk (List.replicate (4 - s.length) '0') ++ s

/-- Model of `StegHelpers.packageKey`: `hex(K)` (the key's 64-char hex rendering,
passed here as `kHex`) ++ 4-hex-char alias count ++ 4-hex-char message
length ++ variable-length hex first pixel index. -/
def packageKey (kHex : String) (aliasCount msgLength firstPixelIndex : Nat) :
    String :=
  kHex ++ padStart4 (toHexString aliasCount) ++
    padStart4 (toHexString msgLength) ++ toHexString firstPixelIndex

/-- Is `c` a hex digit (`parseInt(·, 16)` accepts both cases)? -/
def isHexDigitChar (c : Char) : Bool :=
  (48 ≤ c.toNat && c.toNat ≤ 57) ||
    (97 ≤ c.toNat && c.toNat ≤ 102) || (65 ≤ c.toNat && c.toNat ≤ 70)

/-- Value of a hex digit. -/
def hexVal (c : Char) : Nat :=
  if c.toNat ≤ 57 then c.toNat - 48
  else if c.toNat ≤ 70 then c.toNat - 55
  else c.toNat - 87

/-- Accumulate leading hex digits, stopping at the first non-digit —
the semantics of `parseInt(s, 16)` after its initial-digit check. -/
def parseHexAux : List Char → Nat → Nat
  | [], acc => acc
  | c :: cs, acc =>
    if isHexDigitChar c then parseHexAux cs (acc * 16 + hexVal c) else acc

/-- Model of `parseInt(s, 16)`: `none` models `NaN` (no leading hex digit),
otherwise the value of the maximal hex-digit prefix. -/
def parseHexNum (s : String) : Option Nat :=
  match s.data with
  | [] => none
  | c :: _ => if isHexDigitChar c then some (parseHexAux s.data 0) else none

/-- The fields `unpackageKey` slices out of a packed key. -/
structure KeyFields where
  keyHex : String
  aliasCount : Option Nat
  msgLength : Option Nat
  firstPixelIndex : Option Nat
  deriving Repr, DecidableEq

inductive DecErr where
  /-- The `RangeError("Packed key is too short.")` of `unpackageKey`. -/
  | tooShort
  /-- A `NaN` field reached the decoder (the source silently propagates it;
  no theorem below depends on this branch). -/
  | nanField
  /-- The decoder's `while` loop needs more distinct indices than the image
  has pixels: it never terminates (fuel exhausted for every fuel). -/
  | fuelOut
  /-- A `TypeError`: the source dereferences `undefined`
  (`decodablePixels[i]` out of range). -/
  | typeError
  deriving Repr, DecidableEq

instance {e a : Type} [DecidableEq e] [DecidableEq a] :
    DecidableEq (Except e a) := fun x y =>
  match x, y with
  | .error e1, .error e2 =>
    if h : e1 = e2 then isTrue (by rw [h])
    else isFalse (by intro hc; cases hc; exact h rfl)
  | .error _, .ok _ => isFalse (by intro hc; cases hc)
  | .ok _, .error _ => isFalse (by intro hc; cases hc)
  | .ok x1, .ok y1 =>
    if h : x1 = y1 then isTrue (by rw [h])
    else isFalse (by intro hc; cases hc; exact h rfl)

/-- Model of `StegHelpers.unpackageKey`: only the length is validated; the hex fields
are handed to `parseInt` whose `NaN` results are not checked. -/
def unpackageKey (packed : String) : Except DecErr KeyFields :=
  if packed.length < 72 then .error .tooShort
  else
    .ok { keyHex := String.mk (packed.data.take 64)
        , aliasCount := parseHexNum (String.mk ((packed.data.drop 64).take 4))
        , msgLength := parseHexNum (String.mk ((packed.data.drop 68).take 4))
        , firstPixelIndex := parseHexNum (String.mk (packed.data.drop 72)) }

/-! ### WordArray ↔ byte array conversions (`StegHelpers.ts` lines 66–81) -/

/-- Model of `StegHelpers.uint8ArrayToWordArray`: pack bytes into big-endian 32-bit
words, `words[i >>> 2] |= u8[i] << (24 - (i % 4) * 8)`.  For bytes below 256
the ORs never overlap, so each word is the sum below (taken as the unsigned
value of the JavaScript signed 32-bit word). -/
def uint8ArrayToWordArray : List Nat → List Nat
  | [] => []
  | b :: bs =>
    (b * 2 ^ 24 + bs.headD 0 * 2 ^ 16 +
      (bs.drop 1).headD 0 * 2 ^ 8 + (bs.drop 2).headD 0) ::
      uint8ArrayToWordArray (bs.drop 3)
  termination_by l => l.length
  decreasing_by simp [List.length_drop]; omega

/-- Model of `StegHelpers.wordArrayToUint8Array`: byte `i` of the output is
`(words[i >>> 2] >>> (24 - (i % 4) * 8)) & 0xff`, for `i < sigBytes`. -/
def wordArrayToUint8Array (words : List Nat) (sigBytes : Nat) : List Nat :=
  (List.range sigBytes).map
    (fun i => words.getD (i / 4) 0 / 2 ^ (24 - i % 4 * 8) % 256)

/-! ### Pointer resolution (`StegHelpers.next_pixel_idx`) -/

/-- The constant `DEFAULT_TOTAL_POINTERS = 2 ** 16` (`StegEncoder.ts` line 21). -/
def DEFAULT_TOTAL_POINTERS : Nat := 65536

/-- The word `mac.words[0]` of a crypto-es `WordArray`: the first four tag bytes as a
big-endian 32-bit word (unsigned value of the signed JavaScript word). -/
def hmacWord0 (mac : List Nat) : Nat :=
  mac.getD 0 0 * 2 ^ 24 + mac.getD 1 0 * 2 ^ 16 +
    mac.getD 2 0 * 2 ^ 8 + mac.getD 3 0

/-- Model of `StegHelpers.next_pixel_idx` applied to the 32-byte tag `mac` of
`HMAC_SHA256(K, p)`: `((word0 >>> 16) & 0xffff) % S_len`. -/
def next_pixel_idx (mac : List Nat) (S_len : Nat) : Nat :=
  hmacWord0 mac / 2 ^ 16 % 2 ^ 16 % S_len

/-! ### Candidate-set construction (the `uniqueIndices` loops)

Both `StegEncoder.encode` (lines 142–146) and `StegDecoder.decode`
(lines 50–54) run
`while (uniqueIndices.size < target) uniqueIndices.add(floor(isaac.random() * pixelCount))`
and then enumerate the JavaScript `Set` in insertion order.  `stream k` is
the `k`-th value of `floor(isaac.random() * pixelCount)` after seeding.
The accumulator keeps insertion order reversed; fuel bounds the loop. -/

def collectAux (stream : Nat → Nat) (target : Nat) :
    Nat → Nat → List Nat → Option (List Nat)
  | 0, _, acc => if target ≤ acc.length then some acc.reverse else none
  | fuel + 1, k, acc =>
    if target ≤ acc.length then some acc.reverse
    else
      collectAux stream target fuel (k + 1)
        (if stream k ∈ acc then acc else stream k :: acc)

/-- The ordered list of `target` distinct stream values (insertion order),
or `none` if the loop has not finished within `fuel` iterations. -/
def collectDistinct (stream : Nat → Nat) (target fuel : Nat) :
    Option (List Nat) :=
  collectAux stream target fuel 0 []

theorem collectAux_length (stream : Nat → Nat) (target : Nat) :
    ∀ fuel k acc S, collectAux stream target fuel k acc = some S →
      acc.length ≤ target → S.length = target := by
  intro fuel
  induction fuel with
  | zero =>
    intro k acc S h hle
    unfold collectAux at h
    split at h
    · rename_i hge
      obtain rfl : acc.reverse = S := Option.some.inj h
      simp only [List.length_reverse]
      omega
    · exact absurd h (by simp)
  | succ n ih =>
    intro k acc S h hle
    unfold collectAux at h
    split at h
    · rename_i hge
      obtain rfl : acc.reverse = S := Option.some.inj h
      simp only [List.length_reverse]
      omega
    · rename_i hlt
      refine ih (k + 1) _ S h ?_
      split
      · omega
      · simp only [List.length_cons]; omega

theorem collectDistinct_length (stream : Nat → Nat) (target fuel : Nat)
    (S : List Nat) (h : collectDistinct stream target fuel = some S) :
    S.length = target := by
  exact collectAux_length stream target fuel 0 [] S h (by simp)

theorem collectAux_nodup (stream : Nat → Nat) (target : Nat) :
    ∀ fuel k acc S, acc.Nodup →
      collectAux stream target fuel k acc = some S → S.Nodup := by
  intro fuel
  induction fuel with
  | zero =>
    intro k acc S hnd h
    unfold collectAux at h
    split at h
    · obtain rfl : acc.reverse = S := Option.some.inj h
      exact List.nodup_reverse.mpr hnd
    · exact absurd h (by simp)
  | succ n ih =>
    intro k acc S hnd h
    unfold collectAux at h
    split at h
    · obtain rfl : acc.reverse = S := Option.some.inj h
      exact List.nodup_reverse.mpr hnd
    · refine ih (k + 1) _ S ?_ h
      split
      · exact hnd
      · exact List.Nodup.cons (by assumption) hnd

theorem collectAux_mem (stream : Nat → Nat) (target : Nat) :
    ∀ fuel k acc S, collectAux stream target fuel k acc = some S →
      ∀ x ∈ S, x ∈ acc ∨ ∃ m, x = stream m := by
  intro fuel
  induction fuel with
  | zero =>
    intro k acc S h x hx
    unfold collectAux at h
    split at h
    · obtain rfl : acc.reverse = S := Option.some.inj h
      left
      exact List.mem_reverse.mp hx
    · exact absurd h (by simp)
  | succ n ih =>
    intro k acc S h x hx
    unfold collectAux at h
    split at h
    · obtain rfl : acc.reverse = S := Option.some.inj h
      left
      exact List.mem_reverse.mp hx
    · have := ih (k + 1) _ S h x hx
      rcases this with hmem | hs
      · split at hmem
        · left; exact hmem
        · rcases List.mem_cons.mp hmem with rfl | hmem
          · right; exact ⟨k, rfl⟩
          · left; exact hmem
      · right; exact hs

/-- The decoder bug engine: if the stream only ever produces values below
`bound` and the target exceeds `bound`, the collection loop never finishes,
whatever the fuel.  (`Set.size` can never exceed the number of possible
values.) -/
theorem collectAux_none_of_bound (stream : Nat → Nat) (target bound : Nat)
    (hs : ∀ n, stream n < bound) (ht : bound < target) :
    ∀ fuel k acc, acc.Nodup → (∀ x ∈ acc, x < bound) →
      collectAux stream target fuel k acc = none := by
  intro fuel
  induction fuel with
  | zero =>
    intro k acc hnd hb
    unfold collectAux
    split
    · rename_i hlen
      exfalso
      have : acc.length ≤ bound := by
        have hsub : acc.toFinset ⊆ Finset.range bound := by
          intro x hx
          simp only [List.mem_toFinset] at hx
          exact Finset.mem_range.mpr (hb x hx)
        have := Finset.card_le_card hsub
        rwa [List.toFinset_card_of_nodup hnd, Finset.card_range] at this
      omega
    · rfl
  | succ n ih =>
    intro k acc hnd hb
    unfold collectAux
    split
    · rename_i hlen
      exfalso
      have : acc.length ≤ bound := by
        have hsub : acc.toFinset ⊆ Finset.range bound := by
          intro x hx
          simp only [List.mem_toFinset] at hx
          exact Finset.mem_range.mpr (hb x hx)
        have := Finset.card_le_card hsub
        rwa [List.toFinset_card_of_nodup hnd, Finset.card_range] at this
      omega
    · refine ih (k + 1) _ ?_ ?_
      · split
        · exact hnd
        · exact List.Nodup.cons (by assumption) hnd
      · intro x hx
        split at hx
        · exact hb x hx
        · rcases List.mem_cons.mp hx with rfl | hx
          · exact hs k
          · exact hb x hx

theorem collectDistinct_none_of_bound (stream : Nat → Nat)
    (target bound : Nat) (hs : ∀ n, stream n < bound) (ht : bound < target) :
    ∀ fuel, collectDistinct stream target fuel = none := by
  intro fuel
  exact collectAux_none_of_bound stream target bound hs ht fuel 0 []
    List.nodup_nil (by simp)

/-! ### Stable sort by key

`Array.prototype.sort` with comparator `(a, b) => key(a) - key(b)` is a
stable ascending sort (ECMAScript guarantees stability).  A stable sort's
output is uniquely determined by the comparator and the input order, so the
insertion sort below produces the identical list: `sortByKey` peels the
head and inserts it into the sorted tail, and `insertByKey` walks past only
elements with a *strictly* smaller key, so the head — the element that came
earlier in the input — lands before every equal-keyed element of the tail.
`sortByKey_pairwise_le` (the output is ascending) and `sortByKey_stable`
(elements of any fixed key keep their input order) pin this down: together
with `sortByKey_perm` they are exactly the defining properties of the
stable sort. -/

def insertByKey (key : Nat → Nat) (x : Nat) : List Nat → List Nat
  | [] => [x]
  | y :: ys =>
    if key y < key x then y :: insertByKey key x ys else x :: y :: ys

def sortByKey (key : Nat → Nat) : List Nat → List Nat
  | [] => []
  | x :: xs => insertByKey key x (sortByKey key xs)

theorem insertByKey_perm (key : Nat → Nat) (x : Nat) (l : List Nat) :
    (insertByKey key x l).Perm (x :: l) := by
  induction l with
  | nil => exact List.Perm.refl _
  | cons y ys ih =>
    unfold insertByKey
    split
    · exact ((ih.cons y).trans (List.Perm.swap x y ys))
    · exact List.Perm.refl _

theorem sortByKey_perm (key : Nat → Nat) (l : List Nat) :
    (sortByKey key l).Perm l := by
  induction l with
  | nil => exact List.Perm.refl _
  | cons x xs ih =>
    exact (insertByKey_perm key x (sortByKey key xs)).trans (ih.cons x)

theorem insertByKey_pairwise_le (key : Nat → Nat) (x : Nat) :
    ∀ l : List Nat, l.Pairwise (fun a b => key a ≤ key b) →
      (insertByKey key x l).Pairwise (fun a b => key a ≤ key b) := by
  intro l
  induction l with
  | nil =>
    intro _
    exact List.pairwise_cons.mpr ⟨by simp, List.Pairwise.nil⟩
  | cons y ys ih =>
    intro hp
    obtain ⟨hy, hys⟩ := List.pairwise_cons.mp hp
    unfold insertByKey
    split
    · rename_i hlt
      refine List.pairwise_cons.mpr ⟨?_, ih hys⟩
      intro z hz
      have hz2 : z ∈ x :: ys := (insertByKey_perm key x ys).mem_iff.mp hz
      rcases List.mem_cons.mp hz2 with rfl | hz2
      · omega
      · exact hy z hz2
    · rename_i hge
      refine List.pairwise_cons.mpr ⟨?_, hp⟩
      intro z hz
      rcases List.mem_cons.mp hz with rfl | hz
      · omega
      · have := hy z hz
        omega

theorem sortByKey_pairwise_le (key : Nat → Nat) (l : List Nat) :
    (sortByKey key l).Pairwise (fun a b => key a ≤ key b) := by
  induction l with
  | nil => exact List.Pairwise.nil
  | cons x xs ih => exact insertByKey_pairwise_le key x _ ih

theorem insertByKey_filter_key (key : Nat → Nat) (x k : Nat) :
    ∀ l : List Nat, (insertByKey key x l).filter (fun i => key i == k) =
      if key x = k then x :: l.filter (fun i => key i == k)
      else l.filter (fun i => key i == k) := by
  intro l
  induction l with
  | nil =>
    by_cases hxk : key x = k <;> simp [insertByKey, hxk]
  | cons y ys ih =>
    unfold insertByKey
    split
    · rename_i hlt
      rw [List.filter_cons, ih]
      by_cases hxk : key x = k
      · have hyk : key y ≠ k := by omega
        simp [hxk, hyk, List.filter_cons]
      · by_cases hyk : key y = k
        · simp [hxk, hyk, List.filter_cons]
        · simp [hxk, hyk, List.filter_cons]
    · by_cases hxk : key x = k
      · simp [hxk, List.filter_cons]
      · simp [hxk, List.filter_cons]

/-- Stability: for every key value, the elements carrying it appear in the
sorted list in exactly their input order — the defining property of
ECMAScript's stable `Array.prototype.sort`. -/
theorem sortByKey_stable (key : Nat → Nat) (k : Nat) :
    ∀ l : List Nat, (sortByKey key l).filter (fun i => key i == k) =
      l.filter (fun i => key i == k) := by
  intro l
  induction l with
  | nil => rfl
  | cons x xs ih =>
    show (insertByKey key x (sortByKey key xs)).filter _ = _
    rw [insertByKey_filter_key, List.filter_cons]
    split
    · rename_i hxk
      rw [if_pos (by simpa using hxk), ih]
    · rename_i hxk
      rw [if_neg (by simpa using hxk), ih]

/-- Regression: equal keys keep input order (`sortByKey` is stable, not
anti-stable). -/
theorem sortByKey_stable_pair : sortByKey (fun _ => 0) [0, 1] = [0, 1] :=
  rfl

/-! ### Candidate ordering (`StegEncoder.encode` lines 183–191)

Candidates are positions into `encodablePixels` (image indices in the set
are pairwise distinct, so `findIndex(p => p.index === pixel.index)` recovers
exactly the position of the candidate pixel): first the positions whose RED
channel equals the byte, in set order, then the remaining positions stably
sorted by ascending `|RED - byte|`. -/

def candOrder (pixels : List Pix) (byte : Nat) : List Nat :=
  (List.range pixels.length).filter
      (fun i => (pixels.getD i default).r == byte) ++
    sortByKey (fun i => Nat.dist (pixels.getD i default).r byte)
      ((List.range pixels.length).filter
        (fun i => !((pixels.getD i default).r == byte)))

theorem candOrder_perm (pixels : List Pix) (byte : Nat) :
    (candOrder pixels byte).Perm (List.range pixels.length) := by
  unfold candOrder
  have h1 := sortByKey_perm (fun i => Nat.dist (pixels.getD i default).r byte)
    ((List.range pixels.length).filter
      (fun i => !((pixels.getD i default).r == byte)))
  exact (List.Perm.append_left _ h1).trans (List.filter_append_perm _ _)

theorem mem_candOrder_iff (pixels : List Pix) (byte : Nat) (i : Nat) :
    i ∈ candOrder pixels byte ↔ i < pixels.length := by
  rw [(candOrder_perm pixels byte).mem_iff, List.mem_range]

/-! ### The per-byte selection scan (`StegEncoder.encode` lines 204–245)

`innerScan` is the loop over `possiblePreviousPointers` for one candidate
pixel; the `Bool` is the labelled `break outer` on a perfect match.
`outerScan` is the loop over `candidatePixels`, skipping used positions.
The running best is `(position in S, committed pixel, squared distance)`;
`none` plays the role of `bestPixel = null` / `bestPixelDistance = Infinity`. -/

abbrev Best := Nat × Pix × Nat

/-- The update `if (modifiedPixelDistance < bestPixelDistance) { update }`. -/
def updateBest (best : Option Best) (pos : Nat) (m : Pix) (d : Nat) :
    Option Best :=
  match best with
  | none => some (pos, m, d)
  | some (bp, bx, bd) => if d < bd then some (pos, m, d) else some (bp, bx, bd)

def innerScan (orig : Pix) (pos byte : Nat) :
    List Nat → Option Best → Option Best × Bool
  | [], best => (best, false)
  | p :: ps, best =>
    if perfectMatch orig byte p then (some (pos, orig, 0), true)
    else
      innerScan orig pos byte ps
        (updateBest best pos (modifyPix orig byte p)
          (similaritySq orig (modifyPix orig byte p)))

def outerScan (pixels : List Pix) (used : List Nat) (byte : Nat)
    (ptrs : List Nat) : List Nat → Option Best → Option Best
  | [], best => best
  | pos :: rest, best =>
    if pos ∈ used then outerScan pixels used byte ptrs rest best
    else
      match innerScan (pixels.getD pos default) pos byte ptrs best with
      | (best', true) => best'
      | (best', false) => outerScan pixels used byte ptrs rest best'

/-- One backward chain step's search over all candidates and all valid
pointers, exactly as the nested loops with `break outer` run it. -/
def selectStep (pixels : List Pix) (used : List Nat) (byte : Nat)
    (ptrs : List Nat) : Option Best :=
  outerScan pixels used byte ptrs (candOrder pixels byte) none

/-! ### The encoder pipeline (`StegEncoder.encode`) -/

inductive EncErr where
  /-- The error `"Message too long for this image"` (`StegEncoder.ts` line 139). -/
  | capacity
  /-- The error `"Invariant violated: bestPixel should have been selected"`
  (`StegEncoder.ts` line 249). -/
  | exhausted
  /-- The `uniqueIndices` while loop did not finish within the fuel. -/
  | fuelOut
  /-- Empty `msg_e`: the source would index `msg_e[-1]` (`undefined`) and
  sort with `NaN` comparators — unspecified behaviour, modelled as an error
  and excluded by hypotheses (AES ciphertexts are never empty). -/
  | emptyMsg
  /-- Empty `encodablePixels`: `sort()[0]` is `undefined` and the following
  `setChannel` call is a `TypeError` (only reachable for `t > 65536`). -/
  | emptySet
  deriving Repr, DecidableEq

/-- Phase 0 alias renegotiation (`StegEncoder.ts` lines 124–130): if
`⌊Q/t⌋ < L` the encoder switches to `max(1, ⌊Q/L⌋)`. -/
def effectiveAlias (t L : Nat) : Nat :=
  if DEFAULT_TOTAL_POINTERS / t < L then max 1 (DEFAULT_TOTAL_POINTERS / L)
  else t

/-- Seed-pixel choice (`StegEncoder.ts` lines 159–170): the position in the
set of the first element of the stable sort by `|RED - lastByte|`, i.e. the
earliest position among those minimising that distance. -/
def seedPos (pixels : List Pix) (lastByte : Nat) : Nat :=
  (sortByKey (fun i => Nat.dist (pixels.getD i default).r lastByte)
    (List.range pixels.length)).headD 0

/-- The backward chain loop (`StegEncoder.ts` lines 175–261).  `bytes` is
`[C[L-2], …, C[0]]` (the loop counts `i` down), `used` the used positions,
`curPos` the position the next pixel must point to, and `acc` the committed
`(image index, pixel)` pairs.  Each step filters the full pointer table for
pointers resolving to `curPos` and runs the nested selection scan. -/
def chainLoop (pixels : List Pix) (S : List Nat) (hmac : Nat → List Nat) :
    List Nat → List Nat → Nat → List (Nat × Pix) →
    Except EncErr (List (Nat × Pix) × Nat)
  | [], _, curPos, acc => .ok (acc, curPos)
  | byte :: restBytes, used, curPos, acc =>
    match selectStep pixels used byte
        ((List.range DEFAULT_TOTAL_POINTERS).filter
          (fun p => next_pixel_idx (hmac p) pixels.length == curPos)) with
    | none => .error .exhausted
    | some (pos, pix, _) =>
      chainLoop pixels S hmac restBytes (pos :: used) pos
        (acc ++ [(S.getD pos 0, pix)])

/-- Model of `StegEncoder.encode`.  Parameters: the RGBA image as a pixel list, the
AES ciphertext `C` (the model starts after `aes_encrypt`, whose output the
claims quantify over), the caller's alias count `t`, the seeded ISAAC index
stream, HMAC, the key's 64-char hex form, and fuel for the selection loop.
Returns the packaged key, the written-back image and `pos₀`. -/
def encodeModel (img : List Pix) (C : List Nat) (t : Nat)
    (stream : Nat → Nat) (hmac : Nat → List Nat) (kHex : String)
    (fuel : Nat) : Except EncErr (String × List Pix × Nat) :=
  match C.getLast? with
  | none => .error .emptyMsg
  | some lastByte =>
    let tEff := effectiveAlias t C.length
    let cnt := DEFAULT_TOTAL_POINTERS / tEff
    if img.length < C.length then .error .capacity
    else
      match collectDistinct stream (min cnt img.length) fuel with
      | none => .error .fuelOut
      | some S =>
        if S.isEmpty then .error .emptySet
        else
          let pixels0 := S.map (fun i => img.getD i default)
          let sp := seedPos pixels0 lastByte
          let seeded := { pixels0.getD sp default with r := lastByte }
          let pixels := pixels0.set sp seeded
          match chainLoop pixels S hmac C.dropLast.reverse [sp] sp
              [(S.getD sp 0, seeded)] with
          | .error e => .error e
          | .ok (encPx, pos0) =>
            .ok (packageKey kHex tEff C.length pos0,
                 encPx.foldl (fun im q => im.set q.1 q.2) img, pos0)

/-! ### The decoder pipeline (`StegDecoder.decode`) -/

/-- The decoder's forward chain walk (`StegDecoder.ts` lines 58–68): read
the RED byte, then hop to `decodablePixels[next_pixel_idx(K, pointer, |S|)]`.
`none` models the `TypeError` of dereferencing `undefined` when the start
position is out of range. -/
def chainWalk (pixels : List Pix) (hmac : Nat → List Nat) :
    Nat → Nat → Option (List Nat)
  | _, 0 => some []
  | pos, len + 1 =>
    match pixels.get? pos with
    | none => none
    | some pix =>
      (chainWalk pixels hmac
        (next_pixel_idx (hmac (ptrVal pix)) pixels.length) len).map
        (pix.r :: ·)

/-- Model of `StegDecoder` construction plus `decode()`: unpackage the key, rebuild
the candidate set with `⌊Q / aliasCount⌋` positions — the source takes no
minimum with the pixel count here — and walk the chain for `msgLength`
bytes.  The result is the extracted ciphertext `msg_e`; `aes_decrypt` is
applied to it by the caller of this model. -/
def decodeModel (img : List Pix) (packed : String) (stream : Nat → Nat)
    (hmac : Nat → List Nat) (fuel : Nat) : Except DecErr (List Nat) :=
  match unpackageKey packed with
  | .error e => .error e
  | .ok f =>
    match f.aliasCount, f.msgLength, f.firstPixelIndex with
    | some t, some len, some pos0 =>
      let cnt := DEFAULT_TOTAL_POINTERS / t
      match collectDistinct stream cnt fuel with
      | none => .error .fuelOut
      | some S =>
        let pixels := S.map (fun i => img.getD i default)
        match chainWalk pixels hmac pos0 len with
        | none => .error .typeError
        | some msg => .ok msg
    | _, _, _ => .error .nanField

/-! ### Flattening the nested selection loops

The nested loops of `selectStep` visit the pairs
`(candidate position, valid pointer)` in lexicographic order of
(candidate order, pointer order), with the labelled `break` stopping at the
first perfect match.  `flatScanF` is the same computation over the
flattened pair list; the equivalence is proved below and all optimality
facts are established on the flat form. -/

/-- The committed pixel and its squared distance for one
(candidate position, pointer) pair. -/
def pairDist (pixels : List Pix) (byte : Nat) (q : Nat × Nat) : Nat :=
  similaritySq (pixels.getD q.1 default)
    (modifyPix (pixels.getD q.1 default) byte q.2)

def pairPerfect (pixels : List Pix) (byte : Nat) (q : Nat × Nat) : Prop :=
  perfectMatch (pixels.getD q.1 default) byte q.2

instance (pixels : List Pix) (byte : Nat) (q : Nat × Nat) :
    Decidable (pairPerfect pixels byte q) := by
  unfold pairPerfect; infer_instance

/-- The pair sequence the nested loops traverse: candidates in candidate
order with used positions skipped, each paired with every valid pointer in
table order. -/
def scanPairs (pixels : List Pix) (used : List Nat) (byte : Nat)
    (ptrs : List Nat) : List (Nat × Nat) :=
  (((candOrder pixels byte).filter (fun pos => !decide (pos ∈ used))).map
    (fun pos => ptrs.map (fun p => (pos, p)))).flatten

theorem mem_scanPairs (pixels : List Pix) (used : List Nat) (byte : Nat)
    (ptrs : List Nat) (q : Nat × Nat) :
    q ∈ scanPairs pixels used byte ptrs ↔
      q.1 < pixels.length ∧ q.1 ∉ used ∧ q.2 ∈ ptrs := by
  unfold scanPairs
  rw [List.mem_flatten]
  constructor
  · rintro ⟨l, hl, hq⟩
    rw [List.mem_map] at hl
    obtain ⟨pos, hpos, rfl⟩ := hl
    rw [List.mem_filter] at hpos
    obtain ⟨hpc, hpu⟩ := hpos
    rw [List.mem_map] at hq
    obtain ⟨p, hp, rfl⟩ := hq
    refine ⟨(mem_candOrder_iff pixels byte pos).mp hpc, ?_, hp⟩
    simpa using hpu
  · rintro ⟨h1, h2, h3⟩
    refine ⟨ptrs.map (fun p => (q.1, p)), ?_, ?_⟩
    · rw [List.mem_map]
      refine ⟨q.1, ?_, rfl⟩
      rw [List.mem_filter]
      exact ⟨(mem_candOrder_iff pixels byte q.1).mpr h1, by simpa using h2⟩
    · rw [List.mem_map]
      exact ⟨q.2, h3, rfl⟩

/-- The flattened scan: same traversal and same running best as the nested
loops, with the `Bool` recording the perfect-match break. -/
def flatScanF (pixels : List Pix) (byte : Nat) :
    List (Nat × Nat) → Option Best → Option Best × Bool
  | [], best => (best, false)
  | (pos, p) :: rest, best =>
    if perfectMatch (pixels.getD pos default) byte p then
      (some (pos, pixels.getD pos default, 0), true)
    else
      flatScanF pixels byte rest
        (updateBest best pos (modifyPix (pixels.getD pos default) byte p)
          (similaritySq (pixels.getD pos default)
            (modifyPix (pixels.getD pos default) byte p)))

theorem flatScanF_nil (pixels : List Pix) (byte : Nat) (best : Option Best) :
    flatScanF pixels byte [] best = (best, false) := rfl

theorem flatScanF_cons_perfect (pixels : List Pix) (byte pos p : Nat)
    (rest : List (Nat × Nat)) (best : Option Best)
    (h : perfectMatch (pixels.getD pos default) byte p) :
    flatScanF pixels byte ((pos, p) :: rest) best =
      (some (pos, pixels.getD pos default, 0), true) := by
  unfold flatScanF
  rw [if_pos h]

theorem flatScanF_cons_neg (pixels : List Pix) (byte pos p : Nat)
    (rest : List (Nat × Nat)) (best : Option Best)
    (h : ¬ perfectMatch (pixels.getD pos default) byte p) :
    flatScanF pixels byte ((pos, p) :: rest) best =
      flatScanF pixels byte rest
        (updateBest best pos (modifyPix (pixels.getD pos default) byte p)
          (similaritySq (pixels.getD pos default)
            (modifyPix (pixels.getD pos default) byte p))) := by
  conv_lhs => unfold flatScanF
  rw [if_neg h]

theorem innerScan_eq_flat (pixels : List Pix) (byte pos : Nat) :
    ∀ ptrs best, innerScan (pixels.getD pos default) pos byte ptrs best =
      flatScanF pixels byte (ptrs.map (fun p => (pos, p))) best := by
  intro ptrs
  induction ptrs with
  | nil => intro best; rfl
  | cons p ps ih =>
    intro best
    rw [List.map_cons]
    by_cases h : perfectMatch (pixels.getD pos default) byte p
    · rw [flatScanF_cons_perfect _ _ _ _ _ _ h]
      unfold innerScan
      rw [if_pos h]
    · rw [flatScanF_cons_neg _ _ _ _ _ _ h]
      conv_lhs => unfold innerScan
      rw [if_neg h]
      exact ih _

theorem flatScanF_append (pixels : List Pix) (byte : Nat) :
    ∀ A B best, flatScanF pixels byte (A ++ B) best =
      match flatScanF pixels byte A best with
      | (b, true) => (b, true)
      | (b, false) => flatScanF pixels byte B b := by
  intro A
  induction A with
  | nil => intro B best; rfl
  | cons q rest ih =>
    intro B best
    obtain ⟨pos, p⟩ := q
    rw [List.cons_append]
    by_cases h : perfectMatch (pixels.getD pos default) byte p
    · rw [flatScanF_cons_perfect _ _ _ _ _ _ h,
        flatScanF_cons_perfect _ _ _ _ _ _ h]
    · rw [flatScanF_cons_neg _ _ _ _ _ _ h,
        flatScanF_cons_neg _ _ _ _ _ _ h]
      exact ih B _

theorem outerScan_eq_flat (pixels : List Pix) (used : List Nat) (byte : Nat)
    (ptrs : List Nat) :
    ∀ cands best, outerScan pixels used byte ptrs cands best =
      (flatScanF pixels byte
        ((cands.filter (fun pos => !decide (pos ∈ used))).map
            (fun pos => ptrs.map (fun p => (pos, p)))).flatten best).1 := by
  intro cands
  induction cands with
  | nil => intro best; rfl
  | cons pos rest ih =>
    intro best
    by_cases hu : pos ∈ used
    · have hstep : outerScan pixels used byte ptrs (pos :: rest) best =
          outerScan pixels used byte ptrs rest best := by
        conv_lhs => unfold outerScan
        rw [if_pos hu]
      rw [hstep, ih]
      congr 3
      rw [List.filter_cons]
      simp [hu]
    · have hfil : (pos :: rest).filter (fun pos => !decide (pos ∈ used)) =
          pos :: rest.filter (fun pos => !decide (pos ∈ used)) := by
        rw [List.filter_cons]
        simp [hu]
      rw [hfil, List.map_cons, List.flatten_cons, flatScanF_append,
        ← innerScan_eq_flat]
      conv_lhs => unfold outerScan
      rw [if_neg hu]
      rcases hscan : innerScan (pixels.getD pos default) pos byte ptrs best
        with ⟨best', flag⟩
      cases flag
      · exact ih best'
      · rfl

theorem selectStep_eq_flat (pixels : List Pix) (used : List Nat)
    (byte : Nat) (ptrs : List Nat) :
    selectStep pixels used byte ptrs =
      (flatScanF pixels byte (scanPairs pixels used byte ptrs) none).1 := by
  unfold selectStep scanPairs
  exact outerScan_eq_flat pixels used byte ptrs (candOrder pixels byte) none

theorem updateBest_none (pos : Nat) (m : Pix) (d : Nat) :
    updateBest none pos m d = some (pos, m, d) := rfl

theorem updateBest_some_lt (bp : Nat) (bx : Pix) (bd pos : Nat) (m : Pix)
    (d : Nat) (h : d < bd) :
    updateBest (some (bp, bx, bd)) pos m d = some (pos, m, d) := by
  simp [updateBest, h]

theorem updateBest_some_ge (bp : Nat) (bx : Pix) (bd pos : Nat) (m : Pix)
    (d : Nat) (h : ¬ d < bd) :
    updateBest (some (bp, bx, bd)) pos m d = some (bp, bx, bd) := by
  simp [updateBest, h]


/-- Full characterisation of the flattened scan started from running best
`best`: on a perfect-match break the result is the first perfect pair; with
no break the result is either the initial best (never beaten) or the first
pair attaining the strict minimum, with every earlier pair strictly worse
and every later pair no better. -/
theorem flatScanF_spec (pixels : List Pix) (byte : Nat) :
    ∀ pairs best res f, flatScanF pixels byte pairs best = (res, f) →
      (f = true → ∃ pre q post, pairs = pre ++ q :: post ∧
          pairPerfect pixels byte q ∧
          res = some (q.1, pixels.getD q.1 default, 0) ∧
          ∀ q1 ∈ pre, ¬ pairPerfect pixels byte q1) ∧
      (f = false →
        (∀ q ∈ pairs, ¬ pairPerfect pixels byte q) ∧
        ((res = best ∧ ∀ bp bx bd, best = some (bp, bx, bd) →
            ∀ q ∈ pairs, bd ≤ pairDist pixels byte q) ∨
          ∃ pre q post, pairs = pre ++ q :: post ∧
            res = some (q.1, modifyPix (pixels.getD q.1 default) byte q.2,
              pairDist pixels byte q) ∧
            (∀ bp bx bd, best = some (bp, bx, bd) →
              pairDist pixels byte q < bd) ∧
            (∀ q1 ∈ pre, pairDist pixels byte q < pairDist pixels byte q1) ∧
            (∀ q1 ∈ post,
              pairDist pixels byte q ≤ pairDist pixels byte q1))) := by
  intro pairs
  induction pairs with
  | nil =>
    intro best res f h
    rw [flatScanF_nil] at h
    obtain ⟨rfl, rfl⟩ := Prod.mk.injEq .. ▸ h
    constructor
    · intro hf; cases hf
    · intro _
      exact ⟨by simp, Or.inl ⟨rfl, by simp⟩⟩
  | cons q0 rest ih =>
    intro best res f h
    obtain ⟨pos, p⟩ := q0
    by_cases hperf : perfectMatch (pixels.getD pos default) byte p
    · rw [flatScanF_cons_perfect _ _ _ _ _ _ hperf] at h
      obtain ⟨rfl, rfl⟩ := Prod.mk.injEq .. ▸ h
      constructor
      · intro _
        exact ⟨[], (pos, p), rest, rfl, hperf, rfl, by simp⟩
      · intro hf; cases hf
    · rw [flatScanF_cons_neg _ _ _ _ _ _ hperf] at h
      have hd : similaritySq (pixels.getD pos default)
          (modifyPix (pixels.getD pos default) byte p) =
          pairDist pixels byte (pos, p) := rfl
      obtain ⟨IH1, IH2⟩ := ih _ res f h
      constructor
      · -- a later perfect match broke the loop
        intro hf
        obtain ⟨pre, q, post, hsplit, hq, hres, hpre⟩ := IH1 hf
        refine ⟨(pos, p) :: pre, q, post, by simp [hsplit], hq, hres, ?_⟩
        intro q1 hq1
        rcases List.mem_cons.mp hq1 with rfl | hq1
        · exact hperf
        · exact hpre q1 hq1
      · intro hf
        obtain ⟨hnp, hD⟩ := IH2 hf
        refine ⟨?_, ?_⟩
        · intro q hq
          rcases List.mem_cons.mp hq with rfl | hq
          · exact hperf
          · exact hnp q hq
        · rcases hD with ⟨hres, hmin⟩ | ⟨pre, q, post, hsplit, hres, hbc, hpre, hpost⟩
          · -- the recursive call never improved on the updated best
            match best with
            | none =>
              rw [updateBest_none, hd] at hres hmin
              refine Or.inr ⟨[], (pos, p), rest, rfl, hres, ?_, by simp, ?_⟩
              · intro bp bx bd hbest
                exact Option.noConfusion hbest
              · intro q1 hq1
                exact hmin pos _ _ rfl q1 hq1
            | some (bp, bx, bd) =>
              by_cases hlt : similaritySq (pixels.getD pos default)
                  (modifyPix (pixels.getD pos default) byte p) < bd
              · rw [updateBest_some_lt _ _ _ _ _ _ hlt, hd] at hres hmin
                rw [hd] at hlt
                refine Or.inr ⟨[], (pos, p), rest, rfl, hres, ?_, by simp, ?_⟩
                · intro bp1 bx1 bd1 hbest
                  have hbd : bd = bd1 :=
                    congrArg (fun o => (o.getD (0, default, 0)).2.2) hbest
                  omega
                · intro q1 hq1
                  exact hmin pos _ _ rfl q1 hq1
              · rw [updateBest_some_ge _ _ _ _ _ _ hlt] at hres hmin
                rw [hd] at hlt
                refine Or.inl ⟨hres, ?_⟩
                intro bp1 bx1 bd1 hbest q1 hq1
                have hbd : bd = bd1 :=
                  congrArg (fun o => (o.getD (0, default, 0)).2.2) hbest
                rcases List.mem_cons.mp hq1 with rfl | hq1
                · omega
                · have := hmin bp bx bd rfl q1 hq1
                  omega
          · -- the recursive call found a strictly better pair
            refine Or.inr ⟨(pos, p) :: pre, q, post, by simp [hsplit], hres,
              ?_, ?_, hpost⟩
            · intro bp bx bd hbest
              subst hbest
              by_cases hlt : similaritySq (pixels.getD pos default)
                  (modifyPix (pixels.getD pos default) byte p) < bd
              · rw [updateBest_some_lt _ _ _ _ _ _ hlt, hd] at hbc
                rw [hd] at hlt
                exact lt_trans (hbc pos _ _ rfl) hlt
              · rw [updateBest_some_ge _ _ _ _ _ _ hlt] at hbc
                exact hbc bp bx bd rfl
            · intro q1 hq1
              rcases List.mem_cons.mp hq1 with rfl | hq1
              · match best with
                | none =>
                  rw [updateBest_none, hd] at hbc
                  exact hbc pos _ _ rfl
                | some (bp, bx, bd) =>
                  by_cases hlt : similaritySq (pixels.getD pos default)
                      (modifyPix (pixels.getD pos default) byte p) < bd
                  · rw [updateBest_some_lt _ _ _ _ _ _ hlt, hd] at hbc
                    exact hbc pos _ _ rfl
                  · rw [updateBest_some_ge _ _ _ _ _ _ hlt] at hbc
                    rw [hd] at hlt
                    have := hbc bp bx bd rfl
                    omega
              · exact hpre q1 hq1

theorem similaritySq_self (x : Pix) : similaritySq x x = 0 := by
  simp [similaritySq, Nat.dist_self]

theorem ptrVal_modifyPix (x : Pix) (byte p : Nat) :
    ptrVal (modifyPix x byte p) = p := by
  simp only [ptrVal, modifyPix]
  omega

theorem ptrVal_of_perfect (x : Pix) (byte p : Nat)
    (h : perfectMatch x byte p) : ptrVal x = p := by
  obtain ⟨_, hg, hb⟩ := h
  simp only [ptrVal, hg, hb]
  omega

theorem pairDist_pos_of_not_perfect (pixels : List Pix) (byte : Nat)
    (q : Nat × Nat) (h : ¬ pairPerfect pixels byte q) :
    0 < pairDist pixels byte q := by
  rcases Nat.eq_zero_or_pos (pairDist pixels byte q) with h0 | h0
  · exfalso
    apply h
    have := (similaritySq_eq_zero_iff _ _).mp h0
    exact (modifyPix_eq_self_iff _ _ _).mp this.symm
  · exact h0

/-- Everything the nested selection loops guarantee about a committed
`(position, pixel, distance)` triple: the position is a fresh position of
the candidate set; the pixel is the candidate pixel with RED set to the
byte and its pointer one of the valid pointers (unchanged on a perfect
match), alpha untouched; the distance is that pair's squared distance, is
minimal over every (unused candidate, valid pointer) pair, and every pair
visited strictly earlier in the prescribed iteration order is strictly
worse. -/
theorem selectStep_spec (pixels : List Pix) (used : List Nat) (byte : Nat)
    (ptrs : List Nat) (pos : Nat) (pix : Pix) (d : Nat)
    (h : selectStep pixels used byte ptrs = some (pos, pix, d)) :
    pos < pixels.length ∧ pos ∉ used ∧ ptrVal pix ∈ ptrs ∧
    pix.a = (pixels.getD pos default).a ∧ pix.r = byte ∧
    pix = modifyPix (pixels.getD pos default) byte (ptrVal pix) ∧
    d = pairDist pixels byte (pos, ptrVal pix) ∧
    (∃ pre post, scanPairs pixels used byte ptrs =
        pre ++ (pos, ptrVal pix) :: post ∧
        ∀ q ∈ pre, d < pairDist pixels byte q) ∧
    (∀ q ∈ scanPairs pixels used byte ptrs, d ≤ pairDist pixels byte q) := by
  rw [selectStep_eq_flat] at h
  rcases hfs : flatScanF pixels byte (scanPairs pixels used byte ptrs) none
    with ⟨res, f⟩
  rw [hfs] at h
  simp only at h
  subst h
  obtain ⟨S1, S2⟩ := flatScanF_spec pixels byte _ none _ f hfs
  cases f with
  | true =>
    obtain ⟨pre, q, post, hsplit, hq, hres, hpre⟩ := S1 rfl
    obtain ⟨rfl, rfl, rfl⟩ :
        q.1 = pos ∧ pixels.getD q.1 default = pix ∧ 0 = d := by
      have h1 := Option.some.inj hres.symm
      exact ⟨congrArg Prod.fst h1, congrArg (fun z => z.2.1) h1,
        congrArg (fun z => z.2.2) h1⟩
    have hmem : q ∈ scanPairs pixels used byte ptrs := by
      rw [hsplit]
      exact List.mem_append_right _ (List.mem_cons_self _ _)
    obtain ⟨hlen, hnu, hp⟩ := (mem_scanPairs _ _ _ _ _).mp hmem
    have hptr : ptrVal (pixels.getD q.1 default) = q.2 :=
      ptrVal_of_perfect _ _ _ hq
    have hqpair : (q.1, ptrVal (pixels.getD q.1 default)) = q := by
      rw [hptr]
    have hmod : modifyPix (pixels.getD q.1 default) byte q.2 =
        pixels.getD q.1 default := (modifyPix_eq_self_iff _ _ _).mpr hq
    have hdist0 : pairDist pixels byte q = 0 := by
      unfold pairDist
      rw [show modifyPix (pixels.getD q.1 default) byte q.2 =
        pixels.getD q.1 default from hmod]
      exact similaritySq_self _
    refine ⟨hlen, hnu, hptr ▸ hp, rfl, hq.1, ?_, ?_, ?_, ?_⟩
    · rw [hptr, hmod]
    · rw [hqpair, hdist0]
    · refine ⟨pre, post, by rw [hqpair, ← hsplit], ?_⟩
      intro q1 hq1
      exact pairDist_pos_of_not_perfect pixels byte q1 (hpre q1 hq1)
    · intro q1 _
      exact Nat.zero_le _
  | false =>
    obtain ⟨hnp, hD⟩ := S2 rfl
    rcases hD with ⟨hres, _⟩ | ⟨pre, q, post, hsplit, hres, _, hpre, hpost⟩
    · exact Option.noConfusion hres.symm
    · obtain ⟨rfl, rfl, rfl⟩ :
          q.1 = pos ∧ modifyPix (pixels.getD q.1 default) byte q.2 = pix ∧
            pairDist pixels byte q = d := by
        have h1 := Option.some.inj hres.symm
        exact ⟨congrArg Prod.fst h1, congrArg (fun z => z.2.1) h1,
          congrArg (fun z => z.2.2) h1⟩
      have hmem : q ∈ scanPairs pixels used byte ptrs := by
        rw [hsplit]
        exact List.mem_append_right _ (List.mem_cons_self _ _)
      obtain ⟨hlen, hnu, hp⟩ := (mem_scanPairs _ _ _ _ _).mp hmem
      have hptr : ptrVal (modifyPix (pixels.getD q.1 default) byte q.2) =
          q.2 := ptrVal_modifyPix _ _ _
      have hqpair : (q.1, ptrVal (modifyPix (pixels.getD q.1 default)
          byte q.2)) = q := by
        rw [hptr]
      refine ⟨hlen, hnu, by rw [hptr]; exact hp, rfl, rfl, by rw [hptr],
        by rw [hqpair], ?_, ?_⟩
      · exact ⟨pre, post, by rw [hqpair, ← hsplit], hpre⟩
      · intro q1 hq1
        rw [hsplit] at hq1
        rcases List.mem_append.mp hq1 with hq1 | hq1
        · exact Nat.le_of_lt (hpre q1 hq1)
        · rcases List.mem_cons.mp hq1 with rfl | hq1
          · exact Nat.le_refl _
          · exact hpost q1 hq1

/-! ### Hex round-trip facts (for the key serialisation claims) -/

theorem toHexDigit_hex (d : Nat) (h : d < 16) :
    isHexDigitChar (toHexDigit d) = true ∧ hexVal (toHexDigit d) = d := by
  interval_cases d <;> exact ⟨by decide, by decide⟩

theorem hexDigitsAux_eq_append (n : Nat) :
    ∀ acc, hexDigitsAux n acc = hexDigitsAux n [] ++ acc := by
  induction n using Nat.strong_induction_on with
  | _ n ih =>
    intro acc
    match n with
    | 0 => simp [hexDigitsAux_zero]
    | m + 1 =>
      rw [hexDigitsAux_succ, hexDigitsAux_succ,
        ih ((m + 1) / 16) (Nat.div_lt_self (Nat.succ_pos m) (by omega)),
        ih ((m + 1) / 16) (Nat.div_lt_self (Nat.succ_pos m) (by omega))
          [toHexDigit ((m + 1) % 16)],
        List.append_assoc]
      rfl

theorem parseHexAux_hexDigits (n : Nat) :
    ∀ acc a, parseHexAux (hexDigitsAux n [] ++ acc) a =
      parseHexAux acc (a * 16 ^ (hexDigitsAux n []).length + n) := by
  induction n using Nat.strong_induction_on with
  | _ n ih =>
    intro acc a
    match n with
    | 0 => simp [hexDigitsAux_zero, parseHexAux]
    | m + 1 =>
      have hdiv : (m + 1) / 16 < m + 1 := Nat.div_lt_self (Nat.succ_pos m)
        (by omega)
      rw [hexDigitsAux_succ, hexDigitsAux_eq_append ((m + 1) / 16),
        List.append_assoc]
      have hdig := toHexDigit_hex ((m + 1) % 16) (Nat.mod_lt _ (by omega))
      rw [ih _ hdiv]
      show parseHexAux (toHexDigit ((m + 1) % 16) :: acc) _ = _
      rw [parseHexAux, if_pos hdig.1, hdig.2]
      rw [List.length_append, List.length_singleton]
      congr 1
      have hmod : (m + 1) / 16 * 16 + (m + 1) % 16 = m + 1 := by omega
      rw [pow_succ]
      calc (a * 16 ^ (hexDigitsAux ((m + 1) / 16) []).length +
              (m + 1) / 16) * 16 + (m + 1) % 16
          = a * (16 ^ (hexDigitsAux ((m + 1) / 16) []).length * 16) +
              ((m + 1) / 16 * 16 + (m + 1) % 16) := by ring
        _ = _ := by rw [hmod]

theorem parseHexAux_replicate_zero (k : Nat) :
    ∀ l a, parseHexAux (List.replicate k '0' ++ l) a =
      parseHexAux l (a * 16 ^ k) := by
  induction k with
  | zero => intro l a; simp
  | succ m ih =>
    intro l a
    rw [List.replicate_succ, List.cons_append, parseHexAux,
      if_pos (by decide : isHexDigitChar '0' = true)]
    rw [ih l]
    congr 1
    have : hexVal '0' = 0 := by decide
    rw [this, pow_succ]
    ring

/-- The character data of `n.toString(16)`. -/
theorem toHexString_data (n : Nat) :
    (toHexString n).data = if n = 0 then ['0'] else hexDigitsAux n [] := by
  unfold toHexString
  split <;> rfl

theorem parseHexAux_toHexString (n : Nat) :
    ∀ a, parseHexAux ((toHexString n).data) a = a * 16 ^ (toHexString n).length + n := by
  intro a
  have hlen : (toHexString n).length = (toHexString n).data.length := rfl
  rw [hlen, toHexString_data]
  split
  · subst n
    rw [parseHexAux, if_pos (by decide : isHexDigitChar '0' = true)]
    show parseHexAux [] _ = _
    rw [parseHexAux]
    have : hexVal '0' = 0 := by decide
    simp [this]
  · have := parseHexAux_hexDigits n [] a
    rw [List.append_nil] at this
    rw [this, parseHexAux]

theorem hexDigitsAux_ne_nil (n : Nat) (h : 0 < n) :
    hexDigitsAux n [] ≠ [] := by
  match n with
  | m + 1 =>
    rw [hexDigitsAux_succ, hexDigitsAux_eq_append]
    simp

theorem hexDigitsAux_head_hex (n : Nat) :
    ∀ c ∈ hexDigitsAux n [], isHexDigitChar c = true := by
  induction n using Nat.strong_induction_on with
  | _ n ih =>
    intro c hc
    match n with
    | 0 => simp [hexDigitsAux_zero] at hc
    | m + 1 =>
      rw [hexDigitsAux_succ, hexDigitsAux_eq_append] at hc
      rcases List.mem_append.mp hc with hc | hc
      · exact ih _ (Nat.div_lt_self (Nat.succ_pos m) (by omega)) c hc
      · rcases List.mem_singleton.mp hc with rfl
        exact (toHexDigit_hex _ (Nat.mod_lt _ (by omega))).1

theorem parseHexNum_toHexString (n : Nat) :
    parseHexNum (toHexString n) = some n := by
  have hmain := parseHexAux_toHexString n 0
  simp only [Nat.zero_mul, Nat.zero_add] at hmain
  unfold parseHexNum
  rcases hn : (toHexString n).data with _ | ⟨c, rest⟩
  · exfalso
    rw [toHexString_data] at hn
    split at hn
    · simp at hn
    · exact hexDigitsAux_ne_nil n (by omega) hn
  · have hc : isHexDigitChar c = true := by
      rw [toHexString_data] at hn
      split at hn
      · obtain ⟨rfl, _⟩ := List.cons.injEq .. ▸ hn
        decide
      · have hcm : c ∈ hexDigitsAux n [] := by
          rw [hn]
          exact List.mem_cons_self _ _
        exact hexDigitsAux_head_hex n c hcm
    show (if isHexDigitChar c = true then some (parseHexAux (c :: rest) 0)
      else none) = some n
    rw [if_pos hc, ← hn, hmain]

/-- If `n < 16 ^ k` then `n.toString(16)` has at most `k` digits. -/
theorem toHexString_length_le (k : Nat) :
    ∀ n, 0 < n → n < 16 ^ k → (toHexString n).length ≤ k := by
  induction k with
  | zero =>
    intro n h1 h2
    simp at h2
    omega
  | succ m ih =>
    intro n h1 h2
    have hlen : (toHexString n).length = (hexDigitsAux n []).length := by
      have := toHexString_data n
      rw [if_neg (by omega)] at this
      show (toHexString n).data.length = _
      rw [this]
    rw [hlen]
    match n, h1 with
    | j + 1, _ =>
      rw [hexDigitsAux_succ, hexDigitsAux_eq_append]
      rw [List.length_append, List.length_singleton]
      rcases Nat.eq_zero_or_pos ((j + 1) / 16) with hq | hq
      · rw [hq]
        simp [hexDigitsAux_zero]
      · have hdivlt : (j + 1) / 16 < 16 ^ m := by
          rw [Nat.div_lt_iff_lt_mul (by omega)]
          calc j + 1 < 16 ^ (m + 1) := h2
          _ = 16 ^ m * 16 := by rw [pow_succ]
        have := ih ((j + 1) / 16) hq hdivlt
        have hlen2 : (toHexString ((j + 1) / 16)).length =
            (hexDigitsAux ((j + 1) / 16) []).length := by
          have h3 := toHexString_data ((j + 1) / 16)
          rw [if_neg (by omega)] at h3
          show (toHexString _).data.length = _
          rw [h3]
        omega

theorem toHexString_length_le_four (n : Nat) (h : n ≤ 65535) :
    (toHexString n).length ≤ 4 := by
  rcases Nat.eq_zero_or_pos n with rfl | hpos
  · decide
  · exact toHexString_length_le 4 n hpos (by omega)

theorem padStart4_data_of_le (s : String) (h : s.length ≤ 4) :
    (padStart4 s).data = List.replicate (4 - s.length) '0' ++ s.data := by
  unfold padStart4
  rcases Nat.lt_or_ge s.length 4 with hlt | hge
  · rw [if_neg (by omega)]
    rfl
  · rw [if_pos (by omega)]
    have h4 : s.length = 4 := by omega
    rw [h4]
    simp

theorem padStart4_length (s : String) (h : s.length ≤ 4) :
    (padStart4 s).data.length = 4 := by
  rw [padStart4_data_of_le s h, List.length_append, List.length_replicate]
  have : s.data.length = s.length := rfl
  omega

theorem parseHexNum_padded (k n : Nat) :
    parseHexNum (String.mk (List.replicate k '0' ++ (toHexString n).data)) =
      some n := by
  match k with
  | 0 =>
    show parseHexNum (String.mk ([] ++ (toHexString n).data)) = some n
    rw [List.nil_append]
    exact parseHexNum_toHexString n
  | j + 1 =>
    unfold parseHexNum
    show (match List.replicate (j + 1) '0' ++ (toHexString n).data with
      | [] => none
      | c :: _ => if isHexDigitChar c = true
          then some (parseHexAux (List.replicate (j + 1) '0' ++
            (toHexString n).data) 0)
          else none) = some n
    rw [List.replicate_succ, List.cons_append]
    show (if isHexDigitChar '0' = true
        then some (parseHexAux ('0' :: (List.replicate j '0' ++
          (toHexString n).data)) 0)
        else none) = some n
    rw [if_pos (by decide)]
    have h1 : ('0' :: (List.replicate j '0' ++ (toHexString n).data)) =
        List.replicate (j + 1) '0' ++ (toHexString n).data := by
      rw [List.replicate_succ, List.cons_append]
    rw [h1, parseHexAux_replicate_zero, Nat.zero_mul,
      parseHexAux_toHexString, Nat.zero_mul, Nat.zero_add]

/-- The 4-hex-char field of a value below `2 ^ 16` parses back to it. -/
theorem parseHexNum_field4 (n : Nat) (h : n ≤ 65535) :
    parseHexNum (String.mk (padStart4 (toHexString n)).data) = some n := by
  rw [padStart4_data_of_le _ (toHexString_length_le_four n h)]
  exact parseHexNum_padded _ n

/-- Parsing after packaging (`unpackageKey ∘ packageKey`) is the identity whenever the key hex has its
64 characters and the two 16-bit fields are in range. -/
theorem unpackage_package (kHex : String) (t L pos : Nat)
    (hk : kHex.length = 64) (ht : t ≤ 65535) (hL : L ≤ 65535) :
    unpackageKey (packageKey kHex t L pos) =
      .ok ⟨kHex, some t, some L, some pos⟩ := by
  have hkd : kHex.data.length = 64 := hk
  have hA : (padStart4 (toHexString t)).data.length = 4 :=
    padStart4_length _ (toHexString_length_le_four t ht)
  have hB : (padStart4 (toHexString L)).data.length = 4 :=
    padStart4_length _ (toHexString_length_le_four L hL)
  have hdata : (packageKey kHex t L pos).data =
      ((kHex.data ++ (padStart4 (toHexString t)).data) ++
        (padStart4 (toHexString L)).data) ++ (toHexString pos).data := by
    simp [packageKey, String.data_append]
  have hlen : (packageKey kHex t L pos).length =
      72 + (toHexString pos).data.length := by
    show (packageKey kHex t L pos).data.length = _
    rw [hdata]
    simp only [List.length_append]
    omega
  unfold unpackageKey
  rw [if_neg (by omega)]
  have htake64 : (packageKey kHex t L pos).data.take 64 = kHex.data := by
    rw [hdata, List.append_assoc, List.append_assoc]
    exact List.take_left' hkd
  have hdrop64 : (packageKey kHex t L pos).data.drop 64 =
      (padStart4 (toHexString t)).data ++
        ((padStart4 (toHexString L)).data ++ (toHexString pos).data) := by
    rw [hdata, List.append_assoc, List.append_assoc]
    exact List.drop_left' hkd
  have hdrop68 : (packageKey kHex t L pos).data.drop 68 =
      (padStart4 (toHexString L)).data ++ (toHexString pos).data := by
    rw [hdata, List.append_assoc]
    exact List.drop_left' (by rw [List.length_append]; omega)
  have hdrop72 : (packageKey kHex t L pos).data.drop 72 =
      (toHexString pos).data := by
    rw [hdata]
    exact List.drop_left' (by simp only [List.length_append]; omega)
  rw [htake64, hdrop64, hdrop68, hdrop72]
  rw [List.take_left' hA, List.take_left' hB]
  have hmk : String.mk kHex.data = kHex := rfl
  have hposparse : parseHexNum (String.mk (toHexString pos).data) =
      some pos := parseHexNum_toHexString pos
  rw [hmk, parseHexNum_field4 t ht, parseHexNum_field4 L hL, hposparse]

/-! ### Round trip of the byte/word conversions -/

theorem wordArrayToUint8Array_cons_four (w : Nat) (ws : List Nat) (k : Nat) :
    wordArrayToUint8Array (w :: ws) (k + 4) =
      [w / 2 ^ 24 % 256, w / 2 ^ 16 % 256, w / 2 ^ 8 % 256, w % 256] ++
        wordArrayToUint8Array ws k := by
  unfold wordArrayToUint8Array
  have h4k : k + 4 = 4 + k := by omega
  rw [h4k, List.range_add, List.map_append]
  congr 1
  · rw [show List.range 4 = [0, 1, 2, 3] from by decide]
    simp only [List.map_cons, List.map_nil, List.getD_cons_zero]
    norm_num
  · rw [List.map_map]
    apply List.map_congr_left
    intro i _
    simp only [Function.comp_apply]
    have h1 : (4 + i) / 4 = i / 4 + 1 := by omega
    have h2 : (4 + i) % 4 = i % 4 := by omega
    rw [h1, h2, List.getD_cons_succ]

theorem wordArray_roundtrip_aux :
    ∀ n (u8 : List Nat), u8.length ≤ n → (∀ b ∈ u8, b < 256) →
      wordArrayToUint8Array (uint8ArrayToWordArray u8) u8.length = u8 := by
  intro n
  induction n with
  | zero =>
    intro u8 hlen _
    have hnil : u8 = [] := List.eq_nil_of_length_eq_zero (by omega)
    subst hnil
    simp [uint8ArrayToWordArray, wordArrayToUint8Array]
  | succ m ih =>
    intro u8 hlen hb
    match u8 with
    | [] => simp [uint8ArrayToWordArray, wordArrayToUint8Array]
    | [b0] =>
      have h0 : b0 < 256 := hb b0 (by simp)
      have hw : uint8ArrayToWordArray [b0] = [b0 * 2 ^ 24] := by
        simp [uint8ArrayToWordArray]
      rw [hw]
      show wordArrayToUint8Array [b0 * 2 ^ 24] 1 = [b0]
      unfold wordArrayToUint8Array
      rw [show List.range 1 = [0] from by decide]
      simp only [List.map_cons, List.map_nil, List.getD_cons_zero]
      norm_num
      omega
    | [b0, b1] =>
      have h0 : b0 < 256 := hb b0 (by simp)
      have h1 : b1 < 256 := hb b1 (by simp)
      have hw : uint8ArrayToWordArray [b0, b1] =
          [b0 * 2 ^ 24 + b1 * 2 ^ 16] := by
        simp [uint8ArrayToWordArray]
      rw [hw]
      show wordArrayToUint8Array [b0 * 2 ^ 24 + b1 * 2 ^ 16] 2 = [b0, b1]
      unfold wordArrayToUint8Array
      rw [show List.range 2 = [0, 1] from by decide]
      simp only [List.map_cons, List.map_nil, List.getD_cons_zero]
      norm_num
      omega
    | [b0, b1, b2] =>
      have h0 : b0 < 256 := hb b0 (by simp)
      have h1 : b1 < 256 := hb b1 (by simp)
      have h2 : b2 < 256 := hb b2 (by simp)
      have hw : uint8ArrayToWordArray [b0, b1, b2] =
          [b0 * 2 ^ 24 + b1 * 2 ^ 16 + b2 * 2 ^ 8] := by
        simp [uint8ArrayToWordArray]
      rw [hw]
      show wordArrayToUint8Array [b0 * 2 ^ 24 + b1 * 2 ^ 16 + b2 * 2 ^ 8] 3 =
        [b0, b1, b2]
      unfold wordArrayToUint8Array
      rw [show List.range 3 = [0, 1, 2] from by decide]
      simp only [List.map_cons, List.map_nil, List.getD_cons_zero]
      norm_num
      omega
    | b0 :: b1 :: b2 :: b3 :: rest =>
      have h0 : b0 < 256 := hb b0 (by simp)
      have h1 : b1 < 256 := hb b1 (by simp)
      have h2 : b2 < 256 := hb b2 (by simp)
      have h3 : b3 < 256 := hb b3 (by simp)
      have hw : uint8ArrayToWordArray (b0 :: b1 :: b2 :: b3 :: rest) =
          (b0 * 2 ^ 24 + b1 * 2 ^ 16 + b2 * 2 ^ 8 + b3) ::
            uint8ArrayToWordArray rest := by
        simp [uint8ArrayToWordArray]
      have hlen4 : (b0 :: b1 :: b2 :: b3 :: rest).length =
          rest.length + 4 := by
        simp
      rw [hw, hlen4, wordArrayToUint8Array_cons_four]
      have hrest : rest.length ≤ m := by
        simp only [List.length_cons] at hlen
        omega
      rw [ih rest hrest (fun b hbm => hb b (by simp [hbm]))]
      simp only [List.cons_append, List.nil_append, List.cons.injEq]
      refine ⟨?_, ?_, ?_, ?_, trivial⟩ <;> norm_num <;> omega

/-- The composite `wordArrayToUint8Array ∘ uint8ArrayToWordArray` is the identity on byte
sequences (`sigBytes` equal to the original length). -/
theorem wordArray_roundtrip (u8 : List Nat) (h : ∀ b ∈ u8, b < 256) :
    wordArrayToUint8Array (uint8ArrayToWordArray u8) u8.length = u8 :=
  wordArray_roundtrip_aux u8.length u8 (Nat.le_refl _) h

/-! ### Alpha preservation through the encoder -/

theorem getD_set_alpha (im : List Pix) (j : Nat) (px : Pix) (i : Nat) :
    ((im.set j px).getD i default).a =
      if i = j ∧ i < im.length then px.a else (im.getD i default).a := by
  split
  · rename_i hc
    obtain ⟨rfl, hlt⟩ := hc
    rw [List.getD_eq_getElem?_getD, List.getElem?_set_self',
      List.getElem?_eq_getElem hlt]
    rfl
  · rename_i hc
    rcases Decidable.em (i = j) with rfl | hne
    · have hge : im.length ≤ i := by
        rcases Nat.lt_or_ge i im.length with h | h
        · exact absurd ⟨rfl, h⟩ hc
        · exact h
      rw [List.set_eq_of_length_le hge]
    · rw [List.getD_eq_getElem?_getD, List.getElem?_set_ne
        (fun hji => hne hji.symm), ← List.getD_eq_getElem?_getD]

theorem foldl_set_alpha (img : List Pix) :
    ∀ (l : List (Nat × Pix)) (im : List Pix),
      (∀ q ∈ l, (q.2).a = (img.getD q.1 default).a) →
      (∀ i, (im.getD i default).a = (img.getD i default).a) →
      ∀ i, ((l.foldl (fun im q => im.set q.1 q.2) im).getD i default).a =
        (img.getD i default).a := by
  intro l
  induction l with
  | nil =>
    intro im _ him i
    exact him i
  | cons q rest ih =>
    intro im hl him i
    rw [List.foldl_cons]
    refine ih (im.set q.1 q.2) (fun q1 hq1 => hl q1 (by simp [hq1])) ?_ i
    intro j
    rw [getD_set_alpha]
    split
    · rename_i hc
      rw [hc.1]
      exact hl q (List.mem_cons_self _ _)
    · exact him j

theorem seedPos_lt (pixels : List Pix) (lastByte : Nat)
    (h : pixels ≠ []) : seedPos pixels lastByte < pixels.length := by
  unfold seedPos
  have hperm := sortByKey_perm
    (fun i => Nat.dist (pixels.getD i default).r lastByte)
    (List.range pixels.length)
  have hlen : (sortByKey
      (fun i => Nat.dist (pixels.getD i default).r lastByte)
      (List.range pixels.length)).length = pixels.length := by
    rw [hperm.length_eq, List.length_range]
  have hne : sortByKey (fun i => Nat.dist (pixels.getD i default).r lastByte)
      (List.range pixels.length) ≠ [] := by
    intro hcon
    rw [hcon] at hlen
    simp at hlen
    exact h (List.eq_nil_of_length_eq_zero hlen.symm)
  have hmem : (sortByKey
      (fun i => Nat.dist (pixels.getD i default).r lastByte)
      (List.range pixels.length)).headD 0 ∈ sortByKey
      (fun i => Nat.dist (pixels.getD i default).r lastByte)
      (List.range pixels.length) := by
    rcases hl : sortByKey (fun i => Nat.dist (pixels.getD i default).r
      lastByte) (List.range pixels.length) with _ | ⟨a, as⟩
    · exact absurd hl hne
    · exact List.mem_cons_self a as
  have := hperm.mem_iff.mp hmem
  exact List.mem_range.mp this

theorem chainLoop_alpha (pixels : List Pix) (S : List Nat)
    (hmac : Nat → List Nat) (img : List Pix)
    (hpx : ∀ j, j < pixels.length →
      ((pixels.getD j default).a = (img.getD (S.getD j 0) default).a)) :
    ∀ bytes used curPos acc res,
      (∀ q ∈ acc, (q.2).a = (img.getD q.1 default).a) →
      chainLoop pixels S hmac bytes used curPos acc = .ok res →
      ∀ q ∈ res.1, (q.2).a = (img.getD q.1 default).a := by
  intro bytes
  induction bytes with
  | nil =>
    intro used curPos acc res hacc h q hq
    unfold chainLoop at h
    obtain rfl : (acc, curPos) = res := Except.ok.inj h
    exact hacc q hq
  | cons byte rest ih =>
    intro used curPos acc res hacc h q hq
    unfold chainLoop at h
    rcases hsel : selectStep pixels used byte
        ((List.range DEFAULT_TOTAL_POINTERS).filter
          (fun p => next_pixel_idx (hmac p) pixels.length == curPos)) with
      _ | ⟨pos, pix, d⟩
    · rw [hsel] at h
      exact absurd h (by simp)
    · rw [hsel] at h
      obtain ⟨hlt, _, _, ha, _⟩ := selectStep_spec _ _ _ _ _ _ _ hsel
      refine ih (pos :: used) pos (acc ++ [(S.getD pos 0, pix)]) res ?_ h q hq
      intro q1 hq1
      rcases List.mem_append.mp hq1 with hq1 | hq1
      · exact hacc q1 hq1
      · rcases List.mem_singleton.mp hq1 with rfl
        rw [ha]
        exact hpx pos hlt

theorem getD_map_pix (S : List Nat) (f : Nat → Pix) (j : Nat)
    (h : j < S.length) : (S.map f).getD j default = f (S.getD j 0) := by
  rw [List.getD_eq_getElem?_getD, List.getElem?_map,
    List.getElem?_eq_getElem h, List.getD_eq_getElem?_getD,
    List.getElem?_eq_getElem h]
  rfl

/-- C7.  For every run of the encoder that returns a stego image, the alpha
channel of every pixel equals its value in the cover image: the selection
scan only ever commits pixels whose alpha is the original one (`setChannel`
touches RED, `setPointer` touches GREEN and BLUE), and `setPixelAt` writes
back that unchanged alpha byte. -/
theorem C7_alpha_untouched (img : List Pix) (C : List Nat) (t : Nat)
    (stream : Nat → Nat) (hmac : Nat → List Nat) (kHex : String)
    (fuel : Nat) (key : String) (img2 : List Pix) (pos0 : Nat)
    (h : encodeModel img C t stream hmac kHex fuel = .ok (key, img2, pos0)) :
    ∀ i, (img2.getD i default).a = (img.getD i default).a := by
  simp only [encodeModel] at h
  split at h
  · exact absurd h (by simp)
  rename_i lastByte hlast
  split at h
  · exact absurd h (by simp)
  rename_i hcap
  split at h
  · exact absurd h (by simp)
  rename_i S hS
  split at h
  · exact absurd h (by simp)
  rename_i hSempty
  split at h
  · exact absurd h (by simp)
  rename_i res encPx posFinal hcl
  obtain ⟨hkey, himg2, hpos⟩ :
      packageKey kHex (effectiveAlias t C.length) C.length posFinal = key ∧
      (encPx.foldl (fun im q => im.set q.1 q.2) img) = img2 ∧
      posFinal = pos0 := by
    have h1 := Except.ok.inj h
    exact ⟨congrArg (fun z => z.1) h1, congrArg (fun z => z.2.1) h1,
      congrArg (fun z => z.2.2) h1⟩
  subst himg2
  intro i
  -- names for the intermediate pixel lists
  have hSne : S ≠ [] := by
    intro hcon
    rw [hcon] at hSempty
    exact hSempty rfl
  have hp0ne : S.map (fun i => img.getD i default) ≠ [] := by
    intro hcon
    exact hSne (List.map_eq_nil_iff.mp hcon)
  have hsp : seedPos (S.map (fun i => img.getD i default)) lastByte <
      (S.map (fun i => img.getD i default)).length :=
    seedPos_lt _ _ hp0ne
  have hsplen : seedPos (S.map (fun i => img.getD i default)) lastByte <
      S.length := by
    rwa [List.length_map] at hsp
  have hseeda : ({ (S.map (fun i => img.getD i default)).getD
        (seedPos (S.map (fun i => img.getD i default)) lastByte) default
      with r := lastByte } : Pix).a =
      (img.getD (S.getD (seedPos (S.map (fun i => img.getD i default))
        lastByte) 0) default).a := by
    show ((S.map (fun i => img.getD i default)).getD
      (seedPos (S.map (fun i => img.getD i default)) lastByte) default).a = _
    rw [getD_map_pix S _ _ hsplen]
  have hpx : ∀ j, j < ((S.map (fun i => img.getD i default)).set
      (seedPos (S.map (fun i => img.getD i default)) lastByte)
      { (S.map (fun i => img.getD i default)).getD
          (seedPos (S.map (fun i => img.getD i default)) lastByte) default
        with r := lastByte }).length →
      ((((S.map (fun i => img.getD i default)).set
        (seedPos (S.map (fun i => img.getD i default)) lastByte)
        { (S.map (fun i => img.getD i default)).getD
            (seedPos (S.map (fun i => img.getD i default)) lastByte) default
          with r := lastByte }).getD j default).a =
        (img.getD (S.getD j 0) default).a) := by
    intro j hj
    rw [List.length_set, List.length_map] at hj
    rw [getD_set_alpha]
    split
    · rename_i hc
      rw [hc.1]
      exact hseeda
    · rw [getD_map_pix S _ j hj]
  have hacc0 : ∀ q ∈ ([(S.getD (seedPos (S.map (fun i => img.getD i default))
      lastByte) 0,
      ({ (S.map (fun i => img.getD i default)).getD
          (seedPos (S.map (fun i => img.getD i default)) lastByte) default
        with r := lastByte } : Pix))] : List (Nat × Pix)),
      (q.2).a = (img.getD q.1 default).a := by
    intro q hq
    rcases List.mem_singleton.mp hq with rfl
    exact hseeda
  have hencpx := chainLoop_alpha _ S hmac img hpx _ _ _ _ _ hacc0 hcl
  exact foldl_set_alpha img encPx img hencpx (fun _ => rfl) i

/-! ### Concrete instances

A 2×2 cover image, the shared ISAAC stream `n % 4` (values in `[0, 4)`, as
`floor(random() * 4)` produces), a constant HMAC tag, and an all-zero key
hex.  With ciphertext `[200]` and the default alias count 32 the encoder
clamps its candidate set to `min(2048, 4) = 4` pixels, packages alias count
32, and the decoder then wants 2048 distinct indices out of 4. -/

def imgA : List Pix :=
  [⟨10, 20, 30, 40⟩, ⟨50, 60, 70, 80⟩, ⟨90, 100, 110, 120⟩,
   ⟨130, 140, 150, 160⟩]

def streamA : Nat → Nat := fun n => n % 4

def hmacA : Nat → List Nat := fun _ => List.replicate 32 0

def kHexA : String := String.mk (List.replicate 64 '0')

/-- The key the encoder produces on `imgA`/`[200]`/`t = 32`: alias field
`0020` (= 32), length field `0001`, first position `3`. -/
def keyA : String := String.mk (List.replicate 64 '0') ++ "002000013"

/-- The stego image of that run: pixel 3 got RED set to the ciphertext
byte 200; G, B, A untouched (no chain step for a 1-byte message). -/
def imgA2 : List Pix :=
  [⟨10, 20, 30, 40⟩, ⟨50, 60, 70, 80⟩, ⟨90, 100, 110, 120⟩,
   ⟨200, 140, 150, 160⟩]

/-- C1.  The round-trip claim fails on the code: on a 2×2 cover with the
default alias count the encoder succeeds (clamping its candidate set to
`min(⌊Q/t⌋, W·H) = 4` and packaging alias count 32), but the decoder
rebuilds the candidate set with `⌊Q/32⌋ = 2048` positions and **no** clamp
(`StegDecoder.ts` line 28), so its `while (uniqueIndices.size < 2048)` loop
can never terminate on a 4-pixel image — for every fuel the collection is
still running, and `decode(encode(...))` never returns the plaintext.  The
spec's own scenario S1 (16×16 cover, t = 32, decoder needing 2048 of 256
indices) fails the same way. -/
theorem C1_roundtrip_decoder_diverges :
    encodeModel imgA [200] 32 streamA hmacA kHexA 4 =
      .ok (keyA, imgA2, 3) ∧
    ∀ fuel, decodeModel imgA2 keyA streamA hmacA fuel =
      .error .fuelOut := by
  constructor
  · decide
  · intro fuel
    have hunp : unpackageKey keyA =
        .ok ⟨kHexA, some 32, some 1, some 3⟩ := by decide
    have hq : DEFAULT_TOTAL_POINTERS / 32 = 2048 := by decide
    have hnone := collectDistinct_none_of_bound streamA 2048 4
      (fun n => Nat.mod_lt n (by omega)) (by omega) fuel
    simp only [decodeModel, hunp, hq, hnone]

/-- C2.  The central candidate-set agreement is broken by the same missing
clamp: whenever `W·H < ⌊Q/t⌋` (stream values are pixel indices, below
`W·H`), the encoder's collection (target `min(⌊Q/t⌋, W·H)`) returns a list
of exactly `W·H` positions, while the decoder's collection
(target `⌊Q/t⌋`, no clamp) returns nothing for any amount of fuel — the
decoder can never rebuild the encoder's `S`. -/
theorem C2_candidate_set_mismatch (t pc : Nat) (stream : Nat → Nat)
    (hlt : pc < DEFAULT_TOTAL_POINTERS / t) (hs : ∀ n, stream n < pc) :
    (∀ fuel, collectDistinct stream (DEFAULT_TOTAL_POINTERS / t) fuel =
      none) ∧
    (∀ fuel S, collectDistinct stream
        (min (DEFAULT_TOTAL_POINTERS / t) pc) fuel = some S →
      S.length = pc) := by
  constructor
  · exact collectDistinct_none_of_bound stream _ pc hs hlt
  · intro fuel S hS
    have := collectDistinct_length stream _ fuel S hS
    rw [this, Nat.min_def]
    split <;> omega

/-- C2 witness: a 2×2 image with alias count 8192 (`⌊65536/8192⌋ = 8 > 4`);
the encoder gathers its 4 positions, the decoder gathers none, ever. -/
theorem C2_candidate_set_mismatch_witness :
    (4 < DEFAULT_TOTAL_POINTERS / 8192) ∧
    ((∀ fuel, collectDistinct streamA (DEFAULT_TOTAL_POINTERS / 8192) fuel =
        none) ∧
      (∀ fuel S, collectDistinct streamA
          (min (DEFAULT_TOTAL_POINTERS / 8192) 4) fuel = some S →
        S.length = 4)) :=
  ⟨by decide, C2_candidate_set_mismatch 8192 4 streamA (by decide)
    (fun n => Nat.mod_lt n (by omega))⟩

/-- A malformed 76-char key: valid hex, but `pos₀ = 0xffff` is far beyond
the candidate-set size `⌊65536/0xffff⌋ = 1`. -/
def badKey : String := String.mk (List.replicate 64 '0') ++ "ffff0001ffff"

/-- C9.  The code contradicts the claim: `unpackageKey` accepts this key
without any key-format error — it validates only the length — and the
decoder then dereferences `decodablePixels[65535]` (`undefined`), a
`TypeError` crash rather than a `KeyFormatError` rejection.  (Likewise a
non-hex field is not rejected: `parseInt` silently yields `NaN`.) -/
theorem C9_key_validation_crash :
    unpackageKey badKey = .ok ⟨kHexA, some 65535, some 1, some 65535⟩ ∧
    decodeModel imgA badKey streamA hmacA 1 = .error .typeError := by
  decide

theorem getD_mem (pixels : List Pix) (j : Nat) (h : j < pixels.length) :
    pixels.getD j default ∈ pixels := by
  rw [List.getD_eq_getElem?_getD, List.getElem?_eq_getElem h]
  exact List.getElem_mem h

/-- C3.  At each backward chain step, the pair the nested selection loops
commit is optimal: its squared distance equals the distance of the
committed `(position, pointer)` pair; no unused candidate position paired
with a valid pointer does strictly better; among equal distances the pair
first encountered in the prescribed order (exact-RED matches in set order,
then the rest stably sorted by `|RED − byte|`, pointers in table order)
wins; and an unused candidate whose RED already equals the byte and whose
stored pointer is valid forces distortion 0. -/
theorem C3_minimal_distortion_step (pixels : List Pix) (used : List Nat)
    (byte : Nat) (ptrs : List Nat) (pos : Nat) (pix : Pix) (d : Nat)
    (hbytes : ∀ x ∈ pixels, x.g < 256 ∧ x.b < 256)
    (h : selectStep pixels used byte ptrs = some (pos, pix, d)) :
    d = pairDist pixels byte (pos, ptrVal pix) ∧
    (∀ pos2 p2, pos2 < pixels.length → pos2 ∉ used → p2 ∈ ptrs →
      d ≤ pairDist pixels byte (pos2, p2)) ∧
    (∃ pre post, scanPairs pixels used byte ptrs =
        pre ++ (pos, ptrVal pix) :: post ∧
        ∀ q ∈ pre, d < pairDist pixels byte q) ∧
    (∀ pos2, pos2 < pixels.length → pos2 ∉ used →
      (pixels.getD pos2 default).r = byte →
      ptrVal (pixels.getD pos2 default) ∈ ptrs → d = 0) := by
  obtain ⟨hlen, hnu, hptr, _, _, _, hdeq, hsplit, hmin⟩ :=
    selectStep_spec pixels used byte ptrs pos pix d h
  have hglobal : ∀ pos2 p2, pos2 < pixels.length → pos2 ∉ used →
      p2 ∈ ptrs → d ≤ pairDist pixels byte (pos2, p2) := by
    intro pos2 p2 h1 h2 h3
    exact hmin (pos2, p2) ((mem_scanPairs _ _ _ _ _).mpr ⟨h1, h2, h3⟩)
  refine ⟨hdeq, hglobal, hsplit, ?_⟩
  intro pos2 h1 h2 hr hp
  obtain ⟨hg, hb⟩ := hbytes (pixels.getD pos2 default) (getD_mem _ _ h1)
  have hperf : perfectMatch (pixels.getD pos2 default) byte
      (ptrVal (pixels.getD pos2 default)) := by
    refine ⟨hr, ?_, ?_⟩ <;> unfold ptrVal <;> omega
  have hzero : pairDist pixels byte
      (pos2, ptrVal (pixels.getD pos2 default)) = 0 := by
    unfold pairDist
    rw [show modifyPix (pixels.getD pos2 default) byte
        (ptrVal (pixels.getD pos2 default)) = pixels.getD pos2 default from
      (modifyPix_eq_self_iff _ _ _).mpr hperf]
    exact similaritySq_self _
  have := hglobal pos2 (ptrVal (pixels.getD pos2 default)) h1 h2 hp
  omega

/-- C3 witness: two pixels, byte 7, valid pointers `[3, 259]`; the second
pixel already carries RED 7 and pointer 3, a perfect match committed with
distortion 0. -/
theorem C3_minimal_distortion_step_witness :
    ((∀ x ∈ ([⟨5, 1, 2, 9⟩, ⟨7, 0, 3, 9⟩] : List Pix),
        x.g < 256 ∧ x.b < 256) ∧
      selectStep [⟨5, 1, 2, 9⟩, ⟨7, 0, 3, 9⟩] [] 7 [3, 259] =
        some (1, ⟨7, 0, 3, 9⟩, 0)) ∧
    (0 = pairDist [⟨5, 1, 2, 9⟩, ⟨7, 0, 3, 9⟩] 7 (1, ptrVal ⟨7, 0, 3, 9⟩) ∧
      (∀ pos2 p2,
          pos2 < ([⟨5, 1, 2, 9⟩, ⟨7, 0, 3, 9⟩] : List Pix).length →
          pos2 ∉ ([] : List Nat) → p2 ∈ [3, 259] →
          0 ≤ pairDist [⟨5, 1, 2, 9⟩, ⟨7, 0, 3, 9⟩] 7 (pos2, p2)) ∧
      (∃ pre post, scanPairs [⟨5, 1, 2, 9⟩, ⟨7, 0, 3, 9⟩] [] 7 [3, 259] =
          pre ++ (1, ptrVal ⟨7, 0, 3, 9⟩) :: post ∧
          ∀ q ∈ pre,
            0 < pairDist [⟨5, 1, 2, 9⟩, ⟨7, 0, 3, 9⟩] 7 q) ∧
      (∀ pos2,
          pos2 < ([⟨5, 1, 2, 9⟩, ⟨7, 0, 3, 9⟩] : List Pix).length →
          pos2 ∉ ([] : List Nat) →
          (([⟨5, 1, 2, 9⟩, ⟨7, 0, 3, 9⟩] : List Pix).getD pos2 default).r =
            7 →
          ptrVal (([⟨5, 1, 2, 9⟩, ⟨7, 0, 3, 9⟩] : List Pix).getD pos2
            default) ∈ [3, 259] → (0 : Nat) = 0)) :=
  ⟨⟨by decide, by decide⟩,
    C3_minimal_distortion_step [⟨5, 1, 2, 9⟩, ⟨7, 0, 3, 9⟩] [] 7 [3, 259]
      1 ⟨7, 0, 3, 9⟩ 0 (by decide) (by decide)⟩

/-- The alias field of a packaged key: characters `[64, 68)` hold exactly
the zero-padded 4-char hex of the alias count whenever it fits 16 bits. -/
theorem packageKey_alias_field (kHex : String) (t L pos : Nat)
    (hk : kHex.length = 64) (ht : t ≤ 65535) :
    ((packageKey kHex t L pos).data.drop 64).take 4 =
      (padStart4 (toHexString t)).data := by
  have hkd : kHex.data.length = 64 := hk
  have hA : (padStart4 (toHexString t)).data.length = 4 :=
    padStart4_length _ (toHexString_length_le_four t ht)
  have hdata : (packageKey kHex t L pos).data =
      ((kHex.data ++ (padStart4 (toHexString t)).data) ++
        (padStart4 (toHexString L)).data) ++ (toHexString pos).data := by
    simp [packageKey, String.data_append]
  rw [hdata, List.append_assoc, List.append_assoc, List.drop_left' hkd]
  exact List.take_left' hA

/-- C4 counterexample.  The claim as stated fails for ciphertexts longer
than `Q = 65536`: with `t = 32` and `L = 65537` renegotiation triggers
(`⌊Q/32⌋ = 2048 < L`), the renegotiated count is
`t' = max(1, ⌊65536/65537⌋) = 1`, and `⌊Q/t'⌋ = 65536 < 65537` — the
claimed `|S| = ⌊Q/t'⌋ ≥ L` is false (and the encoder cannot embed 65537
bytes into at most 65536 candidate positions). -/
theorem C4_alias_renegotiation_counterexample :
    DEFAULT_TOTAL_POINTERS / 32 < 65537 ∧
    effectiveAlias 32 65537 = max 1 (DEFAULT_TOTAL_POINTERS / 65537) ∧
    DEFAULT_TOTAL_POINTERS / effectiveAlias 32 65537 < 65537 := by
  decide

/-- C4 (amended: for `t ∈ [1, Q]` and `L ≤ Q`, as the 16-bit key fields
require).  When `⌊Q/t⌋ < L` the encoder renegotiates to
`t' = max(1, ⌊Q/L⌋)`, the recomputed `⌊Q/t'⌋` is at least `L`, and any
serialised key the encoder produces carries `t'`, not the caller's `t`, in
its alias field (characters `[64, 68)`). -/
theorem C4_alias_renegotiation (img : List Pix) (C : List Nat) (t : Nat)
    (stream : Nat → Nat) (hmac : Nat → List Nat) (kHex : String)
    (fuel : Nat) (ht1 : 1 ≤ t) (ht2 : t ≤ 65536) (hL : C.length ≤ 65536)
    (htrig : DEFAULT_TOTAL_POINTERS / t < C.length)
    (hk : kHex.length = 64) :
    effectiveAlias t C.length =
      max 1 (DEFAULT_TOTAL_POINTERS / C.length) ∧
    C.length ≤ DEFAULT_TOTAL_POINTERS / effectiveAlias t C.length ∧
    ∀ key img2 pos0,
      encodeModel img C t stream hmac kHex fuel = .ok (key, img2, pos0) →
      parseHexNum (String.mk ((key.data.drop 64).take 4)) =
        some (effectiveAlias t C.length) := by
  have heff : effectiveAlias t C.length =
      max 1 (DEFAULT_TOTAL_POINTERS / C.length) := by
    unfold effectiveAlias
    rw [if_pos htrig]
  have hQt : 1 ≤ DEFAULT_TOTAL_POINTERS / t := by
    rw [Nat.le_div_iff_mul_le (by omega)]
    show 1 * t ≤ 65536
    omega
  have hL2 : 2 ≤ C.length := by omega
  have hdivle : DEFAULT_TOTAL_POINTERS / C.length ≤ 32768 := by
    have h1 : DEFAULT_TOTAL_POINTERS / C.length ≤
        DEFAULT_TOTAL_POINTERS / 2 := Nat.div_le_div_left hL2 (by omega)
    have h2 : DEFAULT_TOTAL_POINTERS / 2 = 32768 := by decide
    omega
  have htEffle : effectiveAlias t C.length ≤ 65535 := by
    rw [heff]
    omega
  have hLpos : 0 < C.length := by omega
  have hQL1 : 1 ≤ DEFAULT_TOTAL_POINTERS / C.length := by
    rw [Nat.le_div_iff_mul_le hLpos]
    show 1 * C.length ≤ 65536
    omega
  refine ⟨heff, ?_, ?_⟩
  · rw [heff, Nat.max_eq_right hQL1,
      Nat.le_div_iff_mul_le (by omega)]
    calc C.length * (DEFAULT_TOTAL_POINTERS / C.length)
        = DEFAULT_TOTAL_POINTERS / C.length * C.length := Nat.mul_comm _ _
      _ ≤ DEFAULT_TOTAL_POINTERS := Nat.div_mul_le_self _ _
  · intro key img2 pos0 henc
    simp only [encodeModel] at henc
    split at henc
    · exact absurd henc (by simp)
    split at henc
    · exact absurd henc (by simp)
    split at henc
    · exact absurd henc (by simp)
    split at henc
    · exact absurd henc (by simp)
    split at henc
    · exact absurd henc (by simp)
    rename_i res encPx posFinal hcl
    have hkey : packageKey kHex (effectiveAlias t C.length) C.length
        posFinal = key := by
      have h1 := Except.ok.inj henc
      exact congrArg (fun z => z.1) h1
    rw [← hkey, packageKey_alias_field kHex _ _ _ hk htEffle]
    exact parseHexNum_field4 _ htEffle

/-- C4 witness: the spec's S3 numbers — ciphertext length 5000, caller alias
count 32, so `⌊Q/32⌋ = 2048 < 5000` triggers renegotiation and
`t' = ⌊65536/5000⌋ = 13`. -/
theorem C4_alias_renegotiation_witness :
    (1 ≤ 32 ∧ 32 ≤ 65536 ∧
      (List.replicate 5000 (0 : Nat)).length ≤ 65536 ∧
      DEFAULT_TOTAL_POINTERS / 32 <
        (List.replicate 5000 (0 : Nat)).length ∧
      kHexA.length = 64 ∧
      effectiveAlias 32 (List.replicate 5000 (0 : Nat)).length = 13) ∧
    (effectiveAlias 32 (List.replicate 5000 (0 : Nat)).length =
        max 1 (DEFAULT_TOTAL_POINTERS /
          (List.replicate 5000 (0 : Nat)).length) ∧
      (List.replicate 5000 (0 : Nat)).length ≤
        DEFAULT_TOTAL_POINTERS /
          effectiveAlias 32 (List.replicate 5000 (0 : Nat)).length ∧
      ∀ key img2 pos0,
        encodeModel imgA (List.replicate 5000 0) 32 streamA hmacA kHexA 0 =
          .ok (key, img2, pos0) →
        parseHexNum (String.mk ((key.data.drop 64).take 4)) =
          some (effectiveAlias 32
            (List.replicate 5000 (0 : Nat)).length)) :=
  ⟨⟨by decide, by decide, by rw [List.length_replicate]; decide,
      by rw [List.length_replicate]; decide, by decide,
      by rw [List.length_replicate]; decide⟩,
    C4_alias_renegotiation imgA (List.replicate 5000 0) 32 streamA hmacA
      kHexA 0 (by decide) (by decide)
      (by rw [List.length_replicate]; decide)
      (by rw [List.length_replicate]; decide) (by decide)⟩

/-- C5 counterexample.  The claim includes `t = Q = 65536`, but
`65536.toString(16)` is the five-char `"10000"`, which overflows the 4-char
alias field: parsing reads back `0x1000 = 4096`, not 65536 — the round-trip
fails at the claim's own upper endpoint. -/
theorem C5_key_roundtrip_counterexample :
    unpackageKey (packageKey kHexA 65536 0 0) ≠
      .ok ⟨kHexA, some 65536, some 0, some 0⟩ ∧
    unpackageKey (packageKey kHexA 65536 0 0) =
      .ok ⟨kHexA, some 4096, some 0, some 0⟩ := by
  decide

/-- C5 (amended: `t ∈ [1, 65535]` and `L ∈ [0, 65535]`, the values that fit
the two 4-hex-char big-endian fields).  Parsing the serialised key returns
exactly the key hex (characters `[0, 64)`), alias count (`[64, 68)`),
message length (`[68, 72)`) and first position (`[72, end)`). -/
theorem C5_key_roundtrip (kHex : String) (t L pos : Nat)
    (hk : kHex.length = 64) (_ht1 : 1 ≤ t) (ht : t ≤ 65535)
    (hL : L ≤ 65535) :
    unpackageKey (packageKey kHex t L pos) =
      .ok ⟨kHex, some t, some L, some pos⟩ :=
  unpackage_package kHex t L pos hk ht hL

/-- C5 witness: a concrete `(K, t, L, pos₀)` quadruple round-trips. -/
theorem C5_key_roundtrip_witness :
    (kHexA.length = 64 ∧ 1 ≤ 32 ∧ 32 ≤ 65535 ∧ 48 ≤ 65535) ∧
    unpackageKey (packageKey kHexA 32 48 77) =
      .ok ⟨kHexA, some 32, some 48, some 77⟩ :=
  ⟨⟨by decide, by decide, by decide, by decide⟩,
    C5_key_roundtrip kHexA 32 48 77 (by decide) (by decide) (by decide)
      (by decide)⟩

/-- C6.  `next_pixel_idx` takes the first 32-bit word of the HMAC tag,
shifts out the low half (`>>> 16` then `& 0xffff`, i.e. the first two tag
bytes as a big-endian 16-bit integer) and reduces it modulo the candidate
set size; the result is always a valid position in `S`. -/
theorem C6_next_pixel_idx_spec (mac : List Nat) (S_len : Nat)
    (hlen : 0 < S_len) (hb : ∀ i, i < 4 → mac.getD i 0 < 256) :
    next_pixel_idx mac S_len =
      (mac.getD 0 0 * 256 + mac.getD 1 0) % S_len ∧
    next_pixel_idx mac S_len < S_len := by
  have h0 := hb 0 (by omega)
  have h1 := hb 1 (by omega)
  have h2 := hb 2 (by omega)
  have h3 := hb 3 (by omega)
  constructor
  · unfold next_pixel_idx hmacWord0
    congr 1
    set b0 := mac.getD 0 0
    set b1 := mac.getD 1 0
    set b2 := mac.getD 2 0
    set b3 := mac.getD 3 0
    norm_num
    omega
  · exact Nat.mod_lt _ hlen

/-- C6 witness: tag bytes `ab cd 12 34 …` with `|S| = 2048` resolve to
`0xabcd % 2048 = 973`. -/
theorem C6_next_pixel_idx_spec_witness :
    (0 < 2048 ∧ (∀ i, i < 4 →
      (([171, 205, 18, 52] ++ List.replicate 28 0 : List Nat)).getD i 0 <
        256)) ∧
    (next_pixel_idx ([171, 205, 18, 52] ++ List.replicate 28 0) 2048 =
        ((([171, 205, 18, 52] ++ List.replicate 28 0 : List Nat)).getD 0 0 *
          256 +
          (([171, 205, 18, 52] ++ List.replicate 28 0 : List Nat)).getD 1
            0) % 2048 ∧
      next_pixel_idx ([171, 205, 18, 52] ++ List.replicate 28 0) 2048 <
        2048) :=
  ⟨⟨by decide, by decide⟩,
    C6_next_pixel_idx_spec ([171, 205, 18, 52] ++ List.replicate 28 0) 2048
      (by decide) (by decide)⟩

theorem chainLoop_no_capacity (pixels : List Pix) (S : List Nat)
    (hmac : Nat → List Nat) :
    ∀ bytes used curPos acc,
      chainLoop pixels S hmac bytes used curPos acc ≠
        .error EncErr.capacity := by
  intro bytes
  induction bytes with
  | nil =>
    intro used curPos acc h
    unfold chainLoop at h
    cases h
  | cons byte rest ih =>
    intro used curPos acc h
    unfold chainLoop at h
    rcases hsel : selectStep pixels used byte
        ((List.range DEFAULT_TOTAL_POINTERS).filter
          (fun p => next_pixel_idx (hmac p) pixels.length == curPos)) with
      _ | ⟨pos, pix, d⟩
    · rw [hsel] at h
      cases h
    · rw [hsel] at h
      exact ih _ _ _ h

/-- C8.  The encoder raises the capacity error exactly when the ciphertext
is longer than the pixel count.  The check sits before pixel selection
(`StegEncoder.ts` lines 136–140) and the chain search can only fail with
the exhausted-candidates error, never with the capacity error. -/
theorem C8_capacity_check (img : List Pix) (C : List Nat) (t : Nat)
    (stream : Nat → Nat) (hmac : Nat → List Nat) (kHex : String)
    (fuel : Nat) (hL : 1 ≤ C.length) :
    encodeModel img C t stream hmac kHex fuel = .error .capacity ↔
      img.length < C.length := by
  have hne : C ≠ [] := by
    intro hcon
    rw [hcon] at hL
    simp at hL
  obtain ⟨lastByte, hlast⟩ : ∃ b, C.getLast? = some b := by
    rcases hC : C.getLast? with _ | b
    · exact absurd (List.getLast?_eq_none_iff.mp hC) hne
    · exact ⟨b, rfl⟩
  simp only [encodeModel, hlast]
  by_cases hcap : img.length < C.length
  · rw [if_pos hcap]
    simp [hcap]
  · rw [if_neg hcap]
    constructor
    · intro h
      exfalso
      split at h
      · exact absurd h (by decide)
      · split at h
        · exact absurd h (by decide)
        · split at h
          · rename_i e hcl
            obtain rfl : e = EncErr.capacity := Except.error.inj h
            exact chainLoop_no_capacity _ _ _ _ _ _ _ hcl
          · exact absurd h (by simp)
    · intro h
      exact absurd h hcap

/-- C8 witness: an empty image cannot hold a 1-byte ciphertext — the
capacity error fires — and the equivalence is inhabited. -/
theorem C8_capacity_check_witness :
    (1 ≤ ([5] : List Nat).length) ∧
    (encodeModel [] [5] 32 streamA hmacA kHexA 0 = .error .capacity ↔
      ([] : List Pix).length < ([5] : List Nat).length) :=
  ⟨by decide, C8_capacity_check [] [5] 32 streamA hmacA kHexA 0 (by decide)⟩

/-- C10.  The two `WordArray`/`Uint8Array` conversions on the ciphertext
path are mutually inverse on byte sequences: unpacking the packed words
with the original `sigBytes` returns the bytes unchanged. -/
theorem C10_wordarray_roundtrip (u8 : List Nat) (h : ∀ b ∈ u8, b < 256) :
    wordArrayToUint8Array (uint8ArrayToWordArray u8) u8.length = u8 :=
  wordArray_roundtrip u8 h

/-- C10 witness: a 5-byte sequence (one full word plus one spare byte,
including bytes ≥ 128 whose JavaScript `<< 24` is negative). -/
theorem C10_wordarray_roundtrip_witness :
    (∀ b ∈ ([1, 128, 255, 0, 42] : List Nat), b < 256) ∧
    wordArrayToUint8Array (uint8ArrayToWordArray [1, 128, 255, 0, 42])
      ([1, 128, 255, 0, 42] : List Nat).length = [1, 128, 255, 0, 42] :=
  ⟨by decide, C10_wordarray_roundtrip [1, 128, 255, 0, 42] (by decide)⟩

/-- C7 witness: the concrete encode run of `imgA`; every alpha byte of the
stego image equals the cover's. -/
theorem C7_alpha_untouched_witness :
    (encodeModel imgA [200] 32 streamA hmacA kHexA 4 =
      .ok (keyA, imgA2, 3)) ∧
    ∀ i, (imgA2.getD i default).a = (imgA.getD i default).a :=
  ⟨by decide,
    C7_alpha_untouched imgA [200] 32 streamA hmacA kHexA 4 keyA imgA2 3
      (by decide)⟩

/-- Regression: at a seed-pixel distance tie (both pixels at `|R − 10| = 1`)
the model, like the source's stable `sort()[0]`, picks the earliest
position. -/
theorem seedPos_tie_earliest :
    seedPos [⟨9, 0, 0, 0⟩, ⟨11, 0, 0, 0⟩] 10 = 0 := by decide

/-- Regression: at a candidate distance tie (positions 0 and 1 both reach
squared distance 1 for byte 10 with pointer 0) the selection scan commits
position 0, the pair the source's stable iteration order encounters
first. -/
theorem selectStep_tie_earliest :
    selectStep [⟨9, 0, 0, 0⟩, ⟨11, 0, 0, 0⟩] [] 10 [0] =
      some (0, ⟨10, 0, 0, 0⟩, 1) := by decide
